import Mathlib

/-!
# jbovlaste: the query engine of the lojban dictionary browser

A shallow embedding of `jbovlaste.go`: the record types `GlossWord`, `Valsi`
and `Result`, the selection loop `selectData`, the pattern helpers
`getRegexp` and `getArgument`, the part of `main` that turns the command
line into the arguments of `selectData`, and the reporter `displayData` with
its text formatter `formatTxt`.

Conventions of the embedding.

* A Go `string` is a Lean `String`, read as its list of runes.
* A `*regexp.Regexp` is an `Option Regexp`; `none` is the `nil` pointer.
* A run-time panic is the `error` case of `Except Panic`.
* The text printed by `displayData` is a `String` passed from statement to
  statement.
* A compiled regular expression is seen through the one method the program
  calls on it, `MatchString`.  The theorems quantify over every such value,
  so they hold for whatever the library compiles.
-/

namespace Jbovlaste

/-! ## Library: `strings` -/

namespace strings

/-- The function `strings.ToLower`.  The letters `A` to `Z` are mapped to
`a` to `z`; the library also maps the upper-case letters outside ASCII, which
this model leaves in place.  No general theorem below depends on which runes
are mapped; the concrete evaluations use ASCII text only. -/
def ToLower (s : String) : String :=
  String.mk (s.data.map Char.toLower)

/-- Whether `sub` is a prefix of `s`, on lists of runes. -/
def hasPrefixChars : List Char → List Char → Bool
  | _, [] => true
  | [], _ :: _ => false
  | c :: cs, d :: ds => c == d && hasPrefixChars cs ds

/-- Whether `sub` occurs in `s`, on lists of runes. -/
def containsChars : List Char → List Char → Bool
  | [], sub => hasPrefixChars [] sub
  | c :: cs, sub => hasPrefixChars (c :: cs) sub || containsChars cs sub

/-- The function `strings.Contains`: `substr` occurs within `s`. -/
def Contains (s substr : String) : Bool :=
  containsChars s.data substr.data

end strings

/-! ## Library: `regexp` -/

/-- The ways the program can stop with a panic. -/
inductive Panic where
  /-- A method was called through a `nil` pointer. -/
  | nilDereference
  /-- The call `checkError` received a non-nil error. -/
  | checkError
  deriving DecidableEq

deriving instance DecidableEq for Except

/-- A compiled regular expression (`regexp.Regexp`), as the function computed
by its method `MatchString`. -/
structure Regexp where
  /-- Whether the string contains a match of the expression. -/
  accepts : String → Bool

/-- The method call `re.MatchString(s)` on a pointer `re`: it panics on the
`nil` pointer. -/
def Regexp.MatchString : Option Regexp → String → Except Panic Bool
  | none, _ => .error .nilDereference
  | some re, s => .ok (re.accepts s)

/-- The expression `regexp.MustCompile(lit)` for a pattern text `lit` without
metacharacter: it matches the strings in which `lit` occurs. -/
def Regexp.literal (lit : String) : Regexp :=
  ⟨fun s => strings.Contains s lit⟩

/-! ## Data model -/

/-- The struct `GlossWord`. -/
structure GlossWord where
  Word : String
  Sense : String
  deriving DecidableEq

/-- The struct `Valsi`. -/
structure Valsi where
  Unofficial : String
  Word : String
  /-- The field `Type` of the source. -/
  Type_ : String
  Selmaho : String
  UserName : String
  RealName : String
  Definition : String
  DefinitionId : String
  Notes : String
  GlossWords : List GlossWord
  deriving DecidableEq

/-- The struct `Result` (the field `XMLName` plays no part in selection). -/
structure Result where
  ValSlice : List Valsi
  deriving DecidableEq

/-! ## Short-circuit boolean operators over computations that may panic -/

/-- The Go operator `&&`: the right operand is evaluated only when the left
one is true. -/
def land (x y : Except Panic Bool) : Except Panic Bool :=
  match x with
  | .error e => .error e
  | .ok true => y
  | .ok false => .ok false

/-- The Go operator `||`: the right operand is evaluated only when the left
one is false. -/
def lor (x y : Except Panic Bool) : Except Panic Bool :=
  match x with
  | .error e => .error e
  | .ok true => .ok true
  | .ok false => y

/-! ## The selection loop -/

/-- The condition of the outer `if` of `selectData` (source lines 170 to 176). -/
def selectData.criteria (argX typeX userX : Option Regexp) (wild : Bool)
    (valsi : Valsi) : Except Panic Bool :=
  land (land (land
    (Regexp.MatchString argX (strings.ToLower valsi.Word))
    (.ok (!wild || valsi.Unofficial == "true")))
    (lor (.ok (typeX.isNone))
      (Regexp.MatchString typeX (strings.ToLower valsi.Type_))))
    (lor (lor (.ok (userX.isNone))
      (Regexp.MatchString userX (strings.ToLower valsi.UserName)))
      (Regexp.MatchString userX (strings.ToLower valsi.RealName)))

/-- The condition of the inner `if` of `selectData` (source lines 178 to 180). -/
def selectData.clue (clueX : Option Regexp) (valsi : Valsi) : Except Panic Bool :=
  lor (lor (.ok (clueX.isNone))
    (Regexp.MatchString clueX (strings.ToLower valsi.Definition)))
    (Regexp.MatchString clueX (strings.ToLower valsi.Notes))

/-- The body of the loop over the glossary (source lines 188 to 192). -/
def selectData.glossStep (clueX : Option Regexp) (valsi : Valsi)
    (selected : List Valsi) (gloss : GlossWord) : Except Panic (List Valsi) :=
  match lor (Regexp.MatchString clueX (strings.ToLower gloss.Word))
      (Regexp.MatchString clueX (strings.ToLower gloss.Sense)) with
  | .error e => .error e
  | .ok true => .ok (selected ++ [valsi])
  | .ok false => .ok selected

/-- The body of the loop over the collection (source lines 170 to 195). -/
def selectData.step (argX typeX userX clueX : Option Regexp) (wild : Bool)
    (selected : List Valsi) (valsi : Valsi) : Except Panic (List Valsi) :=
  match selectData.criteria argX typeX userX wild valsi with
  | .error e => .error e
  | .ok false => .ok selected
  | .ok true =>
    match selectData.clue clueX valsi with
    | .error e => .error e
    | .ok true => .ok (selected ++ [valsi])
    | .ok false =>
      valsi.GlossWords.foldlM (selectData.glossStep clueX valsi) selected

/-- The function `selectData`. -/
def selectData (parsed : Result) (argX typeX userX clueX : Option Regexp)
    (wild : Bool) : Except Panic (List Valsi) :=
  parsed.ValSlice.foldlM (selectData.step argX typeX userX clueX wild) []

/-! ## Compiling patterns -/

/-- The function `getRegexp` (its second argument, the message printed on a
failure, is left out).  `Compile` is `regexp.Compile`, giving `none` on a
syntax error; `checkError` then panics. -/
def getRegexp (Compile : String → Option Regexp) (str : String) :
    Except Panic (Option Regexp) :=
  if str ≠ "" then
    match Compile str with
    | none => .error .checkError
    | some exp => .ok (some exp)
  else
    .ok none

/-- The function `getArgument` (the message argument is left out). -/
def getArgument (Compile : String → Option Regexp) (args : List String) :
    Except Panic (Option Regexp) :=
  match args with
  | [arg] => getRegexp Compile arg
  | _ => .ok none

/-- The pattern `userRegexp` computed by `main` (source lines 142 to 147). -/
def main.userRegexp (Compile : String → Option Regexp) (officialFlag : Bool)
    (userRegexpStr : String) : Except Panic (Option Regexp) :=
  if officialFlag then
    .ok (some (Regexp.literal "official"))
  else
    getRegexp Compile userRegexpStr

/-- The function `main` up to the call of `displayData`: from the flag values,
the positional arguments and the dictionary to the selected entries.  Reading
and parsing the dictionary file is taken to succeed with `parsedData`.  The
result is `none` when `main` returns after printing the usage. -/
def main (Compile : String → Option Regexp)
    (typeRegexpStr clueRegexpStr userRegexpStr : String)
    (officialFlag wildFlag : Bool) (args : List String) (parsedData : Result) :
    Except Panic (Option (List Valsi)) :=
  match getArgument Compile args with
  | .error e => .error e
  | .ok none => .ok none
  | .ok (some argRegexp) =>
    match getRegexp Compile typeRegexpStr with
    | .error e => .error e
    | .ok typeRegexp =>
      match getRegexp Compile clueRegexpStr with
      | .error e => .error e
      | .ok clueRegexp =>
        match main.userRegexp Compile officialFlag userRegexpStr with
        | .error e => .error e
        | .ok userRegexp =>
          match selectData parsedData (some argRegexp) typeRegexp userRegexp
              clueRegexp wildFlag with
          | .error e => .error e
          | .ok selectedData => .ok (some selectedData)

/-! ## A fragment of the pattern syntax

Concrete pattern texts are needed to evaluate the program on examples.  The
fragment below covers literal runes, `.`, a `*` after either, a leading `^`
and a trailing `$`; on it the matcher agrees with the library. -/

namespace regexp

/-- A single-rune matcher: a literal rune, or `.`. -/
inductive Atom where
  | lit (c : Char)
  | anyChar
  deriving DecidableEq

/-- An atom, possibly under `*`. -/
structure Piece where
  atom : Atom
  star : Bool
  deriving DecidableEq

/-- The runes with a special meaning in the pattern syntax. -/
def metachars : List Char :=
  [Char.ofNat 92, '.', '+', '*', '?', '(', ')', '|', '[', ']', '{', '}', '^', '$']

/-- Whether the atom matches the rune; `.` matches every rune but the line
feed. -/
def Atom.accepts : Atom → Char → Bool
  | .lit c, d => c == d
  | .anyChar, d => d != Char.ofNat 10

/-- Reads one atom. -/
def parseAtom (c : Char) : Option Atom :=
  if c == '.' then some .anyChar
  else if c ∈ metachars then none
  else some (.lit c)

/-- Reads the pieces of a pattern and whether it ends in `$`; `acc` holds the
pieces read so far, the last one first.  A `*` applies to the piece just
read, which must not carry one already. -/
def parsePieces (acc : List Piece) : List Char → Option (List Piece × Bool)
  | [] => some (acc.reverse, false)
  | c :: cs =>
    if c == '$' && cs.isEmpty then some (acc.reverse, true)
    else if c == '*' then
      match acc with
      | ⟨a, false⟩ :: acc' => parsePieces (⟨a, true⟩ :: acc') cs
      | _ => none
    else
      match parseAtom c with
      | none => none
      | some a => parsePieces (⟨a, false⟩ :: acc) cs

/-- Matches `a*` followed by the continuation `k`. -/
def matchStar (a : Atom) (k : List Char → Bool) : List Char → Bool
  | [] => k []
  | c :: cs => k (c :: cs) || (a.accepts c && matchStar a k cs)

/-- Matches the pieces at the start of the text. -/
def matchHere (eol : Bool) : List Piece → List Char → Bool
  | [], s => !eol || s.isEmpty
  | ⟨a, false⟩ :: ps, s =>
    match s with
    | [] => false
    | c :: cs => a.accepts c && matchHere eol ps cs
  | ⟨a, true⟩ :: ps, s => matchStar a (matchHere eol ps) s

/-- Matches the pieces at some position of the text. -/
def matchAnywhere (eol : Bool) (ps : List Piece) : List Char → Bool
  | [] => matchHere eol ps []
  | c :: cs => matchHere eol ps (c :: cs) || matchAnywhere eol ps cs

/-- The function `regexp.Compile` on the fragment; `none` for a text outside
the fragment, also where the library compiles it (alternation, `+`, `?`,
classes, groups).  It is used for closed evaluations on texts of the fragment
only; the general theorems take the compiler as a parameter. -/
def Compile (str : String) : Option Regexp :=
  match str.data with
  | '^' :: rest =>
    match parsePieces [] rest with
    | none => none
    | some (ps, e) => some ⟨fun s => matchHere e ps s.data⟩
  | cs =>
    match parsePieces [] cs with
    | none => none
    | some (ps, e) => some ⟨fun s => matchAnywhere e ps s.data⟩

end regexp

/-! ## The loop body as a pure function

For a present headword pattern no method is called through `nil`, and the
loop body appends to `selected` a list that depends on the entry alone. -/

/-- The value of the outer condition of `selectData` when the headword
pattern is present. -/
def criteriaB (argX : Regexp) (typeX userX : Option Regexp) (wild : Bool)
    (v : Valsi) : Bool :=
  argX.accepts (strings.ToLower v.Word) &&
  (!wild || v.Unofficial == "true") &&
  (match typeX with
    | none => true
    | some t => t.accepts (strings.ToLower v.Type_)) &&
  (match userX with
    | none => true
    | some u => u.accepts (strings.ToLower v.UserName) ||
        u.accepts (strings.ToLower v.RealName))

/-- The value of the condition of the gloss loop for a present clue pattern. -/
def glossB (c : Regexp) (g : GlossWord) : Bool :=
  c.accepts (strings.ToLower g.Word) || c.accepts (strings.ToLower g.Sense)

/-- The entries one iteration of the outer loop appends. -/
def copies (argX : Regexp) (typeX userX clueX : Option Regexp) (wild : Bool)
    (v : Valsi) : List Valsi :=
  if criteriaB argX typeX userX wild v then
    match clueX with
    | none => [v]
    | some c =>
      if c.accepts (strings.ToLower v.Definition) ||
          c.accepts (strings.ToLower v.Notes) then [v]
      else List.replicate (v.GlossWords.countP (glossB c)) v
  else []

/-- The collection positions of the result entries, given how many copies
each entry contributes: `counts` lists the numbers of copies of the entries
from position `start` on. -/
def positions : List Nat → Nat → List Nat
  | [], _ => []
  | n :: ns, start => List.replicate n start ++ positions ns (start + 1)

/-! ## Example data -/

namespace Example

/-- The first entry of the example of the specification. -/
def klama : Valsi :=
  { Unofficial := "false", Word := "klama", Type_ := "gismu", Selmaho := "",
    UserName := "official", RealName := "official", Definition := "go",
    DefinitionId := "1", Notes := "", GlossWords := [] }

/-- The second entry of the example of the specification. -/
def bacru : Valsi :=
  { Unofficial := "true", Word := "bacru", Type_ := "gismu", Selmaho := "",
    UserName := "jdoe", RealName := "John Doe", Definition := "utter",
    DefinitionId := "2", Notes := "", GlossWords := [⟨"speak", ""⟩] }

/-- An entry with three glosses, two of which mention speaking. -/
def tavla : Valsi :=
  { Unofficial := "", Word := "tavla", Type_ := "gismu", Selmaho := "",
    UserName := "jdoe", RealName := "John Doe", Definition := "x1 talks to x2",
    DefinitionId := "3", Notes := "See also bacru.",
    GlossWords := [⟨"Speak", ""⟩, ⟨"chat", ""⟩, ⟨"talk", "to speak to"⟩] }

/-- An entry imported by a contributor whose name, not whose handle, holds
the word `official`. -/
def cmavo : Valsi :=
  { Unofficial := "", Word := "coi", Type_ := "cmavo", Selmaho := "COI",
    UserName := "jdoe", RealName := "Official Data Importer",
    Definition := "vocative: greetings", DefinitionId := "4", Notes := "",
    GlossWords := [⟨"hello", ""⟩] }

/-- An entry whose headword is written in upper case. -/
def lojbo : Valsi :=
  { Unofficial := "", Word := "LOJBO", Type_ := "Gismu", Selmaho := "",
    UserName := "Official", RealName := "Official", Definition := "Lojbanic",
    DefinitionId := "5", Notes := "", GlossWords := [⟨"Lojban", "Language"⟩] }

/-- The entry `lojbo` written in lower case throughout. -/
def lojboLower : Valsi :=
  { Unofficial := "", Word := "lojbo", Type_ := "gismu", Selmaho := "",
    UserName := "official", RealName := "official", Definition := "lojbanic",
    DefinitionId := "5", Notes := "", GlossWords := [⟨"lojban", "language"⟩] }

/-- The pattern compiled from the text `^$`, which matches the empty string
only. -/
def emptyText : Regexp := (regexp.Compile "^$").get rfl

/-- The pattern compiled from the text `^lo`. -/
def startsLo : Regexp := (regexp.Compile "^lo").get rfl

/-- The pattern compiled from the text `.*`. -/
def dotStar : Regexp := (regexp.Compile ".*").get rfl

/-- The pattern compiled from the text `speak`. -/
def speak : Regexp := (regexp.Compile "speak").get rfl

/-- The pattern compiled from the text `talk`. -/
def talk : Regexp := (regexp.Compile "talk").get rfl

end Example

/-! ## The reporter

`formatTxt` applies five replacements, each the method `ReplaceAllString` of
a pattern of the shape `(l₁|…|lₖ)\s+`, a literal alternative followed by a
run of whitespace, with a replacement of the shape `$1` followed by a fixed
text.  The pattern `\s+` is the case of the empty literal. -/

namespace regexp

/-- The class `\s` of the pattern syntax: tab, line feed, form feed, carriage
return and space.  The vertical tab and the spaces outside ASCII are not in
the class: the patterns treat them as any other rune. -/
def isSpace (c : Char) : Bool :=
  c == Char.ofNat 9 || c == Char.ofNat 10 || c == Char.ofNat 12 ||
    c == Char.ofNat 13 || c == ' '

/-- Whether the text starts with a whitespace rune. -/
def startsWithSpace : List Char → Bool
  | [] => false
  | c :: _ => isSpace c

/-- A match of `(l₁|…|lₖ)\s+` at the start of the text: the literal matched
and the text after the match.  The alternatives are tried in order and the
run of whitespace is taken whole. -/
def matchLitSpaces : List (List Char) → List Char → Option (List Char × List Char)
  | [], _ => none
  | lit :: lits, txt =>
    if strings.hasPrefixChars txt lit && startsWithSpace (txt.drop lit.length) then
      some (lit, (txt.drop lit.length).dropWhile isSpace)
    else matchLitSpaces lits txt

/-- The scan of `ReplaceAllString`: at each position, a match is replaced by
the literal followed by `ins` and the scan goes on after the match; without a
match the rune is copied and the scan goes on at the next position.  The
first argument bounds the number of steps; the length of the text is
enough. -/
def replaceAux (lits : List (List Char)) (ins : List Char) :
    Nat → List Char → List Char
  | 0, _ => []
  | _ + 1, [] => []
  | n + 1, c :: cs =>
    match matchLitSpaces lits (c :: cs) with
    | some (lit, rest) => lit ++ ins ++ replaceAux lits ins n rest
    | none => c :: replaceAux lits ins n cs

/-- The scan of `ReplaceAllString` over the whole text. -/
def replaceAll (lits : List (List Char)) (ins : List Char) (src : List Char) :
    List Char :=
  replaceAux lits ins src.length src

/-- The call `regexp.MustCompile(p).ReplaceAllString(src, r)` for the pattern
`p` = `(l₁|…|lₖ)\s+` and the replacement `r` = `$1` followed by `ins`. -/
def ReplaceAllString (lits : List String) (ins : String) (src : String) : String :=
  String.mk (replaceAll (lits.map String.data) ins.data src.data)

end regexp

/-- The function `formatTxt`: the pattern `\s+` replaced by a space, then
`([Cc]f\.)\s+`, `(etc\.)\s+` and `(e\.g\.)\s+` each replaced by `$1`, then
`(\.)\s+` replaced by `$1` and a line feed. -/
def formatTxt (txt : String) : String :=
  let txt := regexp.ReplaceAllString [""] " " txt
  let txt := regexp.ReplaceAllString ["cf.", "Cf."] "" txt
  let txt := regexp.ReplaceAllString ["etc."] "" txt
  let txt := regexp.ReplaceAllString ["e.g."] "" txt
  let txt := regexp.ReplaceAllString ["."] "\n" txt
  txt

/-- The body of the loop of `displayData` over the glossary (source lines 225
to 230); `out` is the text printed so far. -/
def displayData.gloss (out : String) (g : Nat) (gloss : GlossWord) : String :=
  let out := if g == 0 then out ++ "\nglossary :\n" else out
  if gloss.Sense.length > 0 then
    out ++ "\t" ++ gloss.Word ++ "\t->\t" ++ gloss.Sense ++ "\n"
  else
    out ++ "\t" ++ gloss.Word ++ "\n"

/-- The body of the loop of `displayData` over the selected entries (source
lines 205 to 235); `out` is the text printed so far. -/
def displayData.entry (official notes : Bool) (out : String) (valsi : Valsi) :
    String :=
  let out := out ++ "\n[ " ++ valsi.Word ++ " ]\ttype : " ++ valsi.Type_ ++ " " ++
    valsi.Selmaho
  let out := if valsi.Unofficial == "true" then out ++ "\t(unofficial)" else out
  let out :=
    if official ||
        strings.Contains (strings.ToLower valsi.UserName) "official" then
      out ++ "\t(official)\n"
    else if strings.Contains valsi.RealName valsi.UserName then
      out ++ "\t(user: " ++ valsi.RealName ++ ")\n"
    else
      out ++ "\t(user: " ++ valsi.UserName ++ " / " ++ valsi.RealName ++ ")\n"
  let out := out ++ "\ndefinition \t(ID=" ++ valsi.DefinitionId ++ ") :\n\t"
  let out :=
    if valsi.Definition.length > 0 then out ++ formatTxt valsi.Definition ++ "\n"
    else out
  let out := valsi.GlossWords.enum.foldl
    (fun out g => displayData.gloss out g.1 g.2) out
  let out :=
    if notes && valsi.Notes.length > 0 then
      out ++ "\nnotes :\n" ++ formatTxt valsi.Notes ++ "\n"
    else out
  out ++ "\n-----------------------------------------------------------\n"

/-- The function `displayData`, as the text it prints. -/
def displayData (file : String) (selected : List Valsi) (official notes : Bool) :
    String :=
  selected.foldl (displayData.entry official notes)
    ("Parsing XML lojban dictionary (" ++ file ++ ") : found " ++
      toString selected.length ++ " occurences\n")

/-! ## Definitions for the study of `formatTxt`

The first pass of `formatTxt` leaves single spaces between words; the later
passes decide, for each of these spaces, what stands in its place from the
word before it. -/

namespace regexp

/-- The text with every run of whitespace replaced by one space; `inRun` tells
that the rune before was whitespace. -/
def collapse (inRun : Bool) : List Char → List Char
  | [] => []
  | c :: cs =>
    if isSpace c then
      if inRun then collapse true cs else ' ' :: collapse true cs
    else c :: collapse false cs

/-- Whether every whitespace rune of the text is a space that follows no
whitespace; `prevSpace` tells that the rune before was whitespace. -/
def isCollapsed (prevSpace : Bool) : List Char → Bool
  | [] => true
  | c :: cs =>
    if isSpace c then c == ' ' && !prevSpace && isCollapsed true cs
    else isCollapsed false cs

/-- Whether the word ends with the literal. -/
def endsWith (w lit : List Char) : Bool :=
  strings.hasPrefixChars w.reverse lit.reverse

/-- Whether the word ends with one of the literals. -/
def endsAny (lits : List (List Char)) (w : List Char) : Bool :=
  lits.any (endsWith w)

/-- What stands for a space after the word `w`: nothing when `w` ends with a
literal of `done`, `ins` when it ends with a literal of `lits`, and the
space otherwise. -/
def sepAfter (done lits : List (List Char)) (ins : List Char) (w : List Char) :
    List Char :=
  if endsAny done w then [] else if endsAny lits w then ins else [' ']

/-- The text with each space replaced by `dec w`, for the word `w` read since
the space before. -/
def sepFix (dec : List Char → List Char) (w : List Char) : List Char → List Char
  | [] => []
  | c :: cs =>
    if c == ' ' then dec w ++ sepFix dec [] cs
    else c :: sepFix dec (w ++ [c]) cs

/-- Whether no proper non-empty beginning of a literal of `lits` can end a
text that ends with a literal of `done`. -/
def safe (done lits : List (List Char)) : Bool :=
  done.all fun b => lits.all fun lit => (List.range lit.length).all fun k =>
    k == 0 || !(endsWith b (lit.take k) || endsWith (lit.take k) b)

/-- The four abbreviations after which `formatTxt` removes the whitespace. -/
def abbreviations : List (List Char) :=
  ["cf.".data, "Cf.".data, "etc.".data, "e.g.".data]

/-- The word read since the last space, after the text has been read from
the word `w`. -/
def wordAfter (w : List Char) : List Char → List Char
  | [] => w
  | c :: cs => if c == ' ' then wordAfter [] cs else wordAfter (w ++ [c]) cs

/-- The texts that can stand before a word of the output: a space, a line
feed, or an abbreviation whose following space was removed. -/
def stops : List (List Char) :=
  [[' '], [Char.ofNat 10]] ++ abbreviations

/-- Whether the last rune of the text is whitespace. -/
def lastIsSpace (pre : List Char) : Bool :=
  startsWithSpace pre.reverse

/-- Whether the rune `c`, standing after the text `pre`, is laid out as
`formatTxt` leaves whitespace: a whitespace rune is a space or a line feed
and follows no whitespace, a line feed follows a period that ends no
abbreviation, and a space follows no period. -/
def checkRune (pre : List Char) (c : Char) : Bool :=
  !isSpace c ||
    ((c == ' ' || c == Char.ofNat 10) && !lastIsSpace pre &&
      (c != Char.ofNat 10 || (endsWith pre ['.'] && !endsAny abbreviations pre)) &&
      (c != ' ' || !endsWith pre ['.']))

/-- Whether every rune of the text, standing after `pre`, passes `checkRune`. -/
def wellBroken (pre : List Char) : List Char → Bool
  | [] => true
  | c :: cs => checkRune pre c && wellBroken (pre ++ [c]) cs

end regexp

/-! ## Lemmas on the library model -/

theorem hasPrefixChars_iff (s sub : List Char) :
    strings.hasPrefixChars s sub = true ↔ sub <+: s := by
  induction s generalizing sub with
  | nil => cases sub <;> simp [strings.hasPrefixChars]
  | cons c cs ih =>
    cases sub with
    | nil => simp [strings.hasPrefixChars]
    | cons d ds =>
      simp only [strings.hasPrefixChars, Bool.and_eq_true, beq_iff_eq, ih,
        List.cons_prefix_cons]
      constructor
      · rintro ⟨h, h'⟩
        exact ⟨h.symm, h'⟩
      · rintro ⟨h, h'⟩
        exact ⟨h.symm, h'⟩

theorem containsChars_iff (s sub : List Char) :
    strings.containsChars s sub = true ↔ sub <:+: s := by
  induction s with
  | nil =>
    simp only [strings.containsChars, hasPrefixChars_iff, List.prefix_nil,
      List.infix_nil]
  | cons c cs ih =>
    simp only [strings.containsChars, Bool.or_eq_true, hasPrefixChars_iff, ih,
      List.infix_cons_iff]

/-- The model of `strings.Contains` decides whether `substr` occurs as a
contiguous part of `s`. -/
theorem Contains_iff (s substr : String) :
    strings.Contains s substr = true ↔ substr.data <:+: s.data :=
  containsChars_iff s.data substr.data

theorem matchHere_literals (lits s : List Char) :
    regexp.matchHere false (lits.map (fun c => ⟨.lit c, false⟩)) s
      = strings.hasPrefixChars s lits := by
  induction lits generalizing s with
  | nil => cases s <;> simp [regexp.matchHere, strings.hasPrefixChars]
  | cons d ds ih =>
    cases s with
    | nil => simp [regexp.matchHere, strings.hasPrefixChars]
    | cons c cs =>
      simp only [List.map_cons, regexp.matchHere, regexp.Atom.accepts, ih,
        strings.hasPrefixChars]
      rw [Bool.beq_comm]

theorem matchAnywhere_literals (lits s : List Char) :
    regexp.matchAnywhere false (lits.map (fun c => ⟨.lit c, false⟩)) s
      = strings.containsChars s lits := by
  induction s with
  | nil => simp only [regexp.matchAnywhere, strings.containsChars, matchHere_literals]
  | cons c cs ih =>
    simp only [regexp.matchAnywhere, strings.containsChars, matchHere_literals, ih]

/-- On the fragment, the pattern compiled from the text `official` is the
literal matcher used for `regexp.MustCompile` in `main`. -/
theorem Compile_official (s : String) :
    (regexp.Compile "official").map (fun re => re.accepts s)
      = some ((Regexp.literal "official").accepts s) := by
  show some (regexp.matchAnywhere false
      ("official".data.map (fun c => ⟨.lit c, false⟩)) s.data)
    = some (strings.containsChars s.data "official".data)
  rw [matchAnywhere_literals]

/-! ## Lemmas on the loop -/

theorem land_ok (a b : Bool) : land (.ok a) (.ok b) = .ok (a && b) := by
  cases a <;> rfl

theorem lor_ok (a b : Bool) : lor (.ok a) (.ok b) = .ok (a || b) := by
  cases a <;> rfl

theorem lor_true (y : Except Panic Bool) : lor (.ok true) y = .ok true := rfl

theorem criteria_some (argX : Regexp) (typeX userX : Option Regexp) (wild : Bool)
    (v : Valsi) :
    selectData.criteria (some argX) typeX userX wild v
      = .ok (criteriaB argX typeX userX wild v) := by
  unfold selectData.criteria criteriaB
  cases typeX <;> cases userX <;>
    simp only [Regexp.MatchString, Option.isNone, land_ok, lor_ok, lor_true,
      Bool.false_or]

theorem clue_none (v : Valsi) : selectData.clue none v = .ok true := by
  simp [selectData.clue, lor]

theorem clue_some (c : Regexp) (v : Valsi) :
    selectData.clue (some c) v
      = .ok (c.accepts (strings.ToLower v.Definition) ||
          c.accepts (strings.ToLower v.Notes)) := by
  unfold selectData.clue
  simp only [Regexp.MatchString, Option.isNone, lor_ok, Bool.false_or]

theorem glossStep_some (c : Regexp) (v : Valsi) (sel : List Valsi) (g : GlossWord) :
    selectData.glossStep (some c) v sel g
      = .ok (if glossB c g then sel ++ [v] else sel) := by
  unfold selectData.glossStep glossB
  simp only [Regexp.MatchString, lor_ok]
  cases (c.accepts (strings.ToLower g.Word) ||
    c.accepts (strings.ToLower g.Sense)) <;> simp

theorem except_ok_bind {α β : Type} (x : α) (f : α → Except Panic β) :
    (Except.ok x >>= f) = f x := rfl

theorem gloss_loop (c : Regexp) (v : Valsi) (gs : List GlossWord) (sel : List Valsi) :
    gs.foldlM (selectData.glossStep (some c) v) sel
      = .ok (sel ++ List.replicate (gs.countP (glossB c)) v) := by
  induction gs generalizing sel with
  | nil => simp [pure, Except.pure]
  | cons g gs ih =>
    rw [List.foldlM_cons, glossStep_some, except_ok_bind, ih]
    cases h : glossB c g <;> simp [List.countP_cons, h, List.replicate_succ]

theorem step_some (argX : Regexp) (typeX userX clueX : Option Regexp) (wild : Bool)
    (sel : List Valsi) (v : Valsi) :
    selectData.step (some argX) typeX userX clueX wild sel v
      = .ok (sel ++ copies argX typeX userX clueX wild v) := by
  unfold selectData.step copies
  rw [criteria_some]
  cases hc : criteriaB argX typeX userX wild v
  · simp
  · cases clueX with
    | none => simp [clue_none]
    | some c =>
      simp only [clue_some]
      cases hd : (c.accepts (strings.ToLower v.Definition) ||
          c.accepts (strings.ToLower v.Notes))
      · simp [gloss_loop]
      · simp

theorem outer_loop (argX : Regexp) (typeX userX clueX : Option Regexp) (wild : Bool)
    (l : List Valsi) (sel : List Valsi) :
    l.foldlM (selectData.step (some argX) typeX userX clueX wild) sel
      = .ok (sel ++ l.flatMap (copies argX typeX userX clueX wild)) := by
  induction l generalizing sel with
  | nil => simp [pure, Except.pure]
  | cons v l ih =>
    rw [List.foldlM_cons, step_some, except_ok_bind, ih]
    simp

/-- With a present headword pattern `selectData` returns, and its result is
the concatenation of what each entry contributes. -/
theorem selectData_some (parsed : Result) (argX : Regexp)
    (typeX userX clueX : Option Regexp) (wild : Bool) :
    selectData parsed (some argX) typeX userX clueX wild
      = .ok (parsed.ValSlice.flatMap (copies argX typeX userX clueX wild)) := by
  unfold selectData
  rw [outer_loop]
  simp

theorem flatMap_ite_singleton {α : Type} (p : α → Bool) (l : List α) :
    l.flatMap (fun a => if p a then [a] else []) = l.filter p := by
  induction l with
  | nil => rfl
  | cons a l ih =>
    rw [List.flatMap_cons, ih]
    cases h : p a <;> simp [List.filter_cons, h]

theorem copies_wild (argX : Regexp) (typeX userX clueX : Option Regexp) (v : Valsi) :
    copies argX typeX userX clueX true v
      = if v.Unofficial == "true" then copies argX typeX userX clueX false v
        else [] := by
  unfold copies criteriaB
  cases v.Unofficial == "true" <;> simp

theorem filter_copies (p : Valsi → Bool) (argX : Regexp)
    (typeX userX clueX : Option Regexp) (wild : Bool) (v : Valsi) :
    (copies argX typeX userX clueX wild v).filter p
      = if p v then copies argX typeX userX clueX wild v else [] := by
  unfold copies
  cases hp : p v <;> cases criteriaB argX typeX userX wild v <;>
    cases clueX <;> simp [hp] <;> split <;> simp [hp, List.filter_replicate] <;>
    (intro a _ _ _ ha; rw [ha, hp])

theorem flatMap_copies_wild (argX : Regexp) (typeX userX clueX : Option Regexp)
    (l : List Valsi) :
    l.flatMap (copies argX typeX userX clueX true)
      = (l.flatMap (copies argX typeX userX clueX false)).filter
          (fun e => e.Unofficial == "true") := by
  rw [List.filter_flatMap]
  congr 1
  funext v
  rw [filter_copies, copies_wild]

theorem copies_eq_replicate (argX : Regexp) (typeX userX clueX : Option Regexp)
    (wild : Bool) (v : Valsi) :
    copies argX typeX userX clueX wild v
      = List.replicate (copies argX typeX userX clueX wild v).length v := by
  unfold copies
  cases criteriaB argX typeX userX wild v <;> cases clueX <;> simp
  split <;> simp

theorem flatMap_positions (cnt : Valsi → Nat) (l pre : List Valsi) :
    (l.flatMap (fun v => List.replicate (cnt v) v)).map some
      = (positions (l.map cnt) pre.length).map (fun i => (pre ++ l)[i]?) := by
  induction l generalizing pre with
  | nil => simp [positions]
  | cons v l ih =>
    have h := ih (pre ++ [v])
    simp only [List.length_append, List.length_singleton, List.append_assoc,
      List.singleton_append] at h
    simp only [List.flatMap_cons, List.map_append, List.map_replicate,
      List.map_cons, positions, h]
    have hv : (pre ++ v :: l)[pre.length]? = some v := by
      rw [List.getElem?_append_right (Nat.le_refl _)]
      simp
    rw [hv]

/-- The result of `selectData`, read as collection positions. -/
theorem selectData_positions (l : List Valsi) (argX : Regexp)
    (typeX userX clueX : Option Regexp) (wild : Bool) :
    ∃ r, selectData ⟨l⟩ (some argX) typeX userX clueX wild = .ok r ∧
      r.map some
        = (positions
            (l.map (fun v => (copies argX typeX userX clueX wild v).length)) 0).map
          (fun i => l[i]?) := by
  refine ⟨_, selectData_some _ _ _ _ _ _, ?_⟩
  have h := flatMap_positions
    (fun v => (copies argX typeX userX clueX wild v).length) l []
  simp only [List.length_nil, List.nil_append] at h
  rw [← h]
  congr 2
  funext v
  exact copies_eq_replicate argX typeX userX clueX wild v

theorem countP_glossB_congr (c : Regexp) (gs gs' : List GlossWord)
    (h : List.Forall₂ (fun g g' =>
      strings.ToLower g.Word = strings.ToLower g'.Word ∧
      strings.ToLower g.Sense = strings.ToLower g'.Sense) gs gs') :
    gs.countP (glossB c) = gs'.countP (glossB c) := by
  induction h with
  | nil => rfl
  | cons hg _ ih =>
    simp only [List.countP_cons, ih, glossB, hg.1, hg.2]

theorem step_none (typeX userX clueX : Option Regexp) (wild : Bool)
    (sel : List Valsi) (v : Valsi) :
    selectData.step none typeX userX clueX wild sel v
      = .error .nilDereference := rfl

theorem selectData_none (parsed : Result) (typeX userX clueX : Option Regexp)
    (wild : Bool) :
    selectData parsed none typeX userX clueX wild
      = parsed.ValSlice.foldlM
          (fun _ _ => (.error .nilDereference : Except Panic (List Valsi))) [] := by
  unfold selectData
  congr 1

theorem dotStar_accepts (s : String) : Example.dotStar.accepts s = true := by
  show regexp.matchAnywhere false [⟨.anyChar, true⟩] s.data = true
  cases s.data <;>
    simp [regexp.matchAnywhere, regexp.matchHere, regexp.matchStar]

theorem copies_length_congr (argX : Regexp) (typeX userX clueX : Option Regexp)
    (wild : Bool) (a b : Valsi)
    (hU : a.Unofficial = b.Unofficial)
    (hW : strings.ToLower a.Word = strings.ToLower b.Word)
    (hT : strings.ToLower a.Type_ = strings.ToLower b.Type_)
    (hH : strings.ToLower a.UserName = strings.ToLower b.UserName)
    (hR : strings.ToLower a.RealName = strings.ToLower b.RealName)
    (hD : strings.ToLower a.Definition = strings.ToLower b.Definition)
    (hN : strings.ToLower a.Notes = strings.ToLower b.Notes)
    (hG : List.Forall₂ (fun g g' =>
      strings.ToLower g.Word = strings.ToLower g'.Word ∧
      strings.ToLower g.Sense = strings.ToLower g'.Sense)
      a.GlossWords b.GlossWords) :
    (copies argX typeX userX clueX wild a).length
      = (copies argX typeX userX clueX wild b).length := by
  have hc : criteriaB argX typeX userX wild a
      = criteriaB argX typeX userX wild b := by
    unfold criteriaB
    rw [hU, hW, hT, hH, hR]
  unfold copies
  rw [hc]
  cases criteriaB argX typeX userX wild b
  · rfl
  · cases clueX with
    | none => rfl
    | some c =>
      simp only [hD, hN, countP_glossB_congr c _ _ hG, if_true]
      split <;> simp

theorem copies_type_all (argX all : Regexp) (userX clueX : Option Regexp)
    (wild : Bool) (hall : ∀ s, all.accepts s = true) :
    copies argX none userX clueX wild = copies argX (some all) userX clueX wild := by
  funext v
  simp [copies, criteriaB, hall]

theorem copies_user_all (argX all : Regexp) (typeX clueX : Option Regexp)
    (wild : Bool) (hall : ∀ s, all.accepts s = true) :
    copies argX typeX none clueX wild = copies argX typeX (some all) clueX wild := by
  funext v
  simp [copies, criteriaB, hall]

theorem copies_clue_all (argX all : Regexp) (typeX userX : Option Regexp)
    (wild : Bool) (hall : ∀ s, all.accepts s = true) :
    copies argX typeX userX none wild = copies argX typeX userX (some all) wild := by
  funext v
  simp [copies, hall]

/-! ## Selection: the admission rule -/

/-- C1: when the clue pattern is absent, `selectData` returns exactly the
entries of the collection, in collection order and each once, for which the
headword pattern matches the lower-cased headword, and `wild` is false or
`Unofficial` is `"true"`, and the type pattern is absent or matches the
lower-cased type, and the user pattern is absent or matches the lower-cased
contributor handle or the lower-cased contributor name. -/
theorem selectData_without_clue (parsed : Result) (argX : Regexp)
    (typeX userX : Option Regexp) (wild : Bool) :
    selectData parsed (some argX) typeX userX none wild
      = .ok (parsed.ValSlice.filter (fun e =>
          argX.accepts (strings.ToLower e.Word) &&
          (!wild || e.Unofficial == "true") &&
          (match typeX with
            | none => true
            | some t => t.accepts (strings.ToLower e.Type_)) &&
          (match userX with
            | none => true
            | some u => u.accepts (strings.ToLower e.UserName) ||
                u.accepts (strings.ToLower e.RealName)))) := by
  rw [selectData_some]
  exact congrArg Except.ok
    (flatMap_ite_singleton (criteriaB argX typeX userX wild) parsed.ValSlice)

/-- C2: an entry that passes the headword, wild, type and user criteria and
whose lower-cased definition and lower-cased notes both fail a present clue
pattern is appended, at its place in the result, exactly as many times in a
row as it has glosses whose lower-cased word or lower-cased sense matches the
clue pattern: twice for two such glosses, once for one, not at all for none. -/
theorem selectData_gloss_fallback (pre post : List Valsi) (v : Valsi)
    (argX : Regexp) (typeX userX : Option Regexp) (c : Regexp) (wild : Bool)
    (hpass : selectData.criteria (some argX) typeX userX wild v = .ok true)
    (hdef : c.accepts (strings.ToLower v.Definition) = false)
    (hnotes : c.accepts (strings.ToLower v.Notes) = false) :
    ∃ r₁ r₂,
      selectData ⟨pre⟩ (some argX) typeX userX (some c) wild = .ok r₁ ∧
      selectData ⟨post⟩ (some argX) typeX userX (some c) wild = .ok r₂ ∧
      selectData ⟨pre ++ v :: post⟩ (some argX) typeX userX (some c) wild
        = .ok (r₁ ++ List.replicate
            (v.GlossWords.countP (fun g =>
              c.accepts (strings.ToLower g.Word) ||
              c.accepts (strings.ToLower g.Sense))) v ++ r₂) := by
  refine ⟨_, _, selectData_some _ _ _ _ _ _, selectData_some _ _ _ _ _ _, ?_⟩
  rw [selectData_some, criteria_some] at *
  have hc : criteriaB argX typeX userX wild v = true := Except.ok.inj hpass
  have hv : copies argX typeX userX (some c) wild v
      = List.replicate (v.GlossWords.countP (glossB c)) v := by
    simp [copies, hc, hdef, hnotes]
  simp only [List.flatMap_append, List.flatMap_cons, hv, List.append_assoc]
  rfl

/-- C3: an entry that passes the headword, wild, type and user criteria and
whose lower-cased definition or lower-cased notes matches a present clue
pattern is appended exactly once at its place in the result, whatever its
glosses are. -/
theorem selectData_clue_in_text (pre post : List Valsi) (v : Valsi)
    (argX : Regexp) (typeX userX : Option Regexp) (c : Regexp) (wild : Bool)
    (hpass : selectData.criteria (some argX) typeX userX wild v = .ok true)
    (htext : c.accepts (strings.ToLower v.Definition) = true ∨
      c.accepts (strings.ToLower v.Notes) = true) :
    ∃ r₁ r₂,
      selectData ⟨pre⟩ (some argX) typeX userX (some c) wild = .ok r₁ ∧
      selectData ⟨post⟩ (some argX) typeX userX (some c) wild = .ok r₂ ∧
      selectData ⟨pre ++ v :: post⟩ (some argX) typeX userX (some c) wild
        = .ok (r₁ ++ [v] ++ r₂) := by
  refine ⟨_, _, selectData_some _ _ _ _ _ _, selectData_some _ _ _ _ _ _, ?_⟩
  rw [selectData_some, criteria_some] at *
  have hc : criteriaB argX typeX userX wild v = true := Except.ok.inj hpass
  have hv : copies argX typeX userX (some c) wild v = [v] := by
    rcases htext with h | h <;> simp [copies, hc, h]
  simp only [List.flatMap_append, List.flatMap_cons, hv, List.append_assoc]

/-- Witness of C2 on the collection `klama`, `tavla`, `bacru` with the clue
pattern `speak`: `tavla` has two matching glosses and appears twice, `bacru`
has one and appears once, `klama` has none and is left out. -/
theorem selectData_gloss_fallback_witness :
    selectData.criteria (some Example.dotStar) none none false Example.tavla
        = .ok true ∧
    Example.speak.accepts (strings.ToLower Example.tavla.Definition) = false ∧
    Example.speak.accepts (strings.ToLower Example.tavla.Notes) = false ∧
    (∃ r₁ r₂,
      selectData ⟨[Example.klama]⟩ (some Example.dotStar) none none
        (some Example.speak) false = .ok r₁ ∧
      selectData ⟨[Example.bacru]⟩ (some Example.dotStar) none none
        (some Example.speak) false = .ok r₂ ∧
      selectData ⟨[Example.klama] ++ Example.tavla :: [Example.bacru]⟩
        (some Example.dotStar) none none (some Example.speak) false
        = .ok (r₁ ++ List.replicate
            (Example.tavla.GlossWords.countP (fun g =>
              Example.speak.accepts (strings.ToLower g.Word) ||
              Example.speak.accepts (strings.ToLower g.Sense))) Example.tavla
            ++ r₂)) ∧
    selectData ⟨[Example.klama, Example.tavla, Example.bacru]⟩
        (some Example.dotStar) none none (some Example.speak) false
      = .ok [Example.tavla, Example.tavla, Example.bacru] :=
  ⟨by decide, by decide, by decide,
    selectData_gloss_fallback [Example.klama] [Example.bacru] Example.tavla
      Example.dotStar none none Example.speak false
      (by decide) (by decide) (by decide),
    by decide⟩

/-- Witness of C3 on the collection `klama`, `tavla`, `bacru` with the clue
pattern `talk`: the definition of `tavla` matches, and so does one of its
glosses; the entry appears once. -/
theorem selectData_clue_in_text_witness :
    selectData.criteria (some Example.dotStar) none none false Example.tavla
        = .ok true ∧
    (Example.talk.accepts (strings.ToLower Example.tavla.Definition) = true ∨
      Example.talk.accepts (strings.ToLower Example.tavla.Notes) = true) ∧
    Example.tavla.GlossWords.countP (fun g =>
        Example.talk.accepts (strings.ToLower g.Word) ||
        Example.talk.accepts (strings.ToLower g.Sense)) = 1 ∧
    (∃ r₁ r₂,
      selectData ⟨[Example.klama]⟩ (some Example.dotStar) none none
        (some Example.talk) false = .ok r₁ ∧
      selectData ⟨[Example.bacru]⟩ (some Example.dotStar) none none
        (some Example.talk) false = .ok r₂ ∧
      selectData ⟨[Example.klama] ++ Example.tavla :: [Example.bacru]⟩
        (some Example.dotStar) none none (some Example.talk) false
        = .ok (r₁ ++ [Example.tavla] ++ r₂)) ∧
    selectData ⟨[Example.klama, Example.tavla, Example.bacru]⟩
        (some Example.dotStar) none none (some Example.talk) false
      = .ok [Example.tavla] :=
  ⟨by decide, by decide, by decide,
    selectData_clue_in_text [Example.klama] [Example.bacru] Example.tavla
      Example.dotStar none none Example.talk false
      (by decide) (by decide),
    by decide⟩

/-- C4: the result of `selectData` with `wild` set is the result with `wild`
unset restricted, order and multiplicity kept, to the entries whose
`Unofficial` is `"true"`; with the `official` user pattern of the flag `-o`
the run with `wild` set returns whenever the run without does, with that
restriction of its result. -/
theorem selectData_wild_restricts (parsed : Result) (argX : Regexp)
    (typeX userX clueX : Option Regexp) :
    (∃ r,
      selectData parsed (some argX) typeX userX clueX false = .ok r ∧
      selectData parsed (some argX) typeX userX clueX true
        = .ok (r.filter (fun e => e.Unofficial == "true"))) ∧
    (∀ (Compile : String → Option Regexp) (t c u : String) (args : List String),
      main Compile t c u true true args parsed
        = (main Compile t c u true false args parsed).map
            (Option.map (List.filter (fun e => e.Unofficial == "true")))) := by
  constructor
  · refine ⟨_, selectData_some _ _ _ _ _ _, ?_⟩
    rw [selectData_some, flatMap_copies_wild]
  · intro Compile t c u args
    unfold main
    cases getArgument Compile args with
    | error e => rfl
    | ok a =>
      cases a with
      | none => rfl
      | some argRegexp =>
        cases getRegexp Compile t with
        | error e => rfl
        | ok typeRegexp =>
          cases getRegexp Compile c with
          | error e => rfl
          | ok clueRegexp =>
            cases main.userRegexp Compile true u with
            | error e => rfl
            | ok userRegexp =>
              simp only [selectData_some, flatMap_copies_wild]
              rfl

/-! ## The flag `-o` -/

/-- C5: when the official flag is set, the user pattern handed to
`selectData` is the fixed pattern `official` whatever user pattern text is
supplied, and the outcome of the run is the same for any two supplied user
pattern texts. -/
theorem official_overrides_user_pattern (Compile : String → Option Regexp)
    (t c u u' : String) (wild : Bool) (args : List String) (parsed : Result) :
    main.userRegexp Compile true u = .ok (some (Regexp.literal "official")) ∧
    main.userRegexp Compile true u = main.userRegexp Compile true u' ∧
    main Compile t c u true wild args parsed
      = main Compile t c u' true wild args parsed :=
  ⟨rfl, rfl, rfl⟩

/-- C6, refuted as stated: with the official flag set, the entry `coi`, whose
contributor handle `jdoe` does not contain `official` and whose contributor
name does, satisfies the effective user criterion and is selected. -/
theorem official_criterion_uses_name :
    main.userRegexp regexp.Compile true ""
        = .ok (some (Regexp.literal "official")) ∧
    strings.Contains (strings.ToLower Example.cmavo.UserName) "official"
        = false ∧
    selectData.criteria (some Example.dotStar) none
        (some (Regexp.literal "official")) false Example.cmavo = .ok true ∧
    main regexp.Compile "" "" "" true false [".*"]
        ⟨[Example.klama, Example.bacru, Example.cmavo]⟩
      = .ok (some [Example.klama, Example.cmavo]) := by
  refine ⟨rfl, ?_, ?_, ?_⟩ <;> decide

/-- C6, amended: with the official flag set, an entry that passes the
headword, wild and type criteria satisfies the effective user criterion if
and only if its lower-cased contributor handle or its lower-cased
contributor name contains the word `official`. -/
theorem official_criterion (Compile : String → Option Regexp) (u : String)
    (userX : Option Regexp) (argX : Regexp) (typeX : Option Regexp)
    (wild : Bool) (v : Valsi)
    (hflag : main.userRegexp Compile true u = .ok userX)
    (hword : argX.accepts (strings.ToLower v.Word) = true)
    (hwild : wild = false ∨ v.Unofficial = "true")
    (htype : ∀ t, typeX = some t → t.accepts (strings.ToLower v.Type_) = true) :
    selectData.criteria (some argX) typeX userX wild v = .ok true ↔
      (strings.Contains (strings.ToLower v.UserName) "official" = true ∨
        strings.Contains (strings.ToLower v.RealName) "official" = true) := by
  have hu : userX = some (Regexp.literal "official") := by
    have h : (Except.ok (some (Regexp.literal "official")) :
        Except Panic (Option Regexp)) = .ok userX := hflag
    exact (Except.ok.inj h).symm
  subst hu
  have hw : (!wild || v.Unofficial == "true") = true := by
    rcases hwild with h | h <;> simp [h]
  rw [criteria_some]
  unfold criteriaB
  cases typeX with
  | none => simp [hword, hw, Regexp.literal]
  | some t => simp [hword, hw, htype t rfl, Regexp.literal]

/-- Witness of the amended C6 on the entry `coi`, and the example of the
specification: on `klama`, `bacru` the official run selects `klama` alone. -/
theorem official_criterion_witness :
    (selectData.criteria (some Example.dotStar) none
        (some (Regexp.literal "official")) false Example.cmavo = .ok true ↔
      (strings.Contains (strings.ToLower Example.cmavo.UserName) "official"
          = true ∨
        strings.Contains (strings.ToLower Example.cmavo.RealName) "official"
          = true)) ∧
    main regexp.Compile "" "" "" true false [".*"]
        ⟨[Example.klama, Example.bacru]⟩ = .ok (some [Example.klama]) :=
  ⟨official_criterion regexp.Compile "" (some (Regexp.literal "official"))
      Example.dotStar none false Example.cmavo rfl (by decide)
      (Or.inl rfl) (by simp),
    by decide⟩

/-! ## Empty fields and the case of pattern texts -/

/-- C7, refuted as stated: the clue pattern text `^$` is not empty; the entry
`klama` has empty notes, a definition that does not match and no gloss; it is
admitted, because the pattern matches its empty notes. -/
theorem empty_notes_can_admit :
    "^$" ≠ "" ∧
    Example.klama.Notes = "" ∧
    Example.emptyText.accepts (strings.ToLower Example.klama.Definition)
        = false ∧
    Example.klama.GlossWords = [] ∧
    selectData ⟨[Example.klama]⟩ (some Example.dotStar) none none
        (some Example.emptyText) false = .ok [Example.klama] ∧
    main regexp.Compile "" "^$" "" false false [".*"] ⟨[Example.klama]⟩
      = .ok (some [Example.klama]) := by
  refine ⟨?_, ?_, ?_, ?_, ?_, ?_⟩ <;> decide

/-- C7, amended: for a present clue pattern that does not match the empty
string, an entry with empty notes, a definition that does not match, no gloss
whose word matches and no gloss whose non-empty sense matches is not
admitted: its empty notes and empty gloss senses match nothing. -/
theorem empty_fields_do_not_admit (pre post : List Valsi) (v : Valsi)
    (argX : Regexp) (typeX userX : Option Regexp) (c : Regexp) (wild : Bool)
    (hempty : c.accepts "" = false)
    (hnotes : v.Notes = "")
    (hdef : c.accepts (strings.ToLower v.Definition) = false)
    (hword : ∀ g ∈ v.GlossWords, c.accepts (strings.ToLower g.Word) = false)
    (hsense : ∀ g ∈ v.GlossWords,
      g.Sense = "" ∨ c.accepts (strings.ToLower g.Sense) = false) :
    ∃ r₁ r₂,
      selectData ⟨pre⟩ (some argX) typeX userX (some c) wild = .ok r₁ ∧
      selectData ⟨post⟩ (some argX) typeX userX (some c) wild = .ok r₂ ∧
      selectData ⟨pre ++ v :: post⟩ (some argX) typeX userX (some c) wild
        = .ok (r₁ ++ r₂) := by
  refine ⟨_, _, selectData_some _ _ _ _ _ _, selectData_some _ _ _ _ _ _, ?_⟩
  rw [selectData_some]
  have hlow : strings.ToLower "" = "" := rfl
  have hgloss : v.GlossWords.countP (glossB c) = 0 := by
    rw [List.countP_eq_zero]
    intro g hg
    have h1 := hword g hg
    have h2 : c.accepts (strings.ToLower g.Sense) = false := by
      rcases hsense g hg with h | h
      · rw [h, hlow, hempty]
      · exact h
    simp [glossB, h1, h2]
  have hv : copies argX typeX userX (some c) wild v = [] := by
    unfold copies
    rw [hnotes, hlow]
    simp [hempty, hdef, hgloss]
  simp only [List.flatMap_append, List.flatMap_cons, hv, List.nil_append]

/-- Witness of the amended C7: `klama` is not admitted for the clue pattern
`speak`. -/
theorem empty_fields_do_not_admit_witness :
    Example.speak.accepts "" = false ∧
    Example.klama.Notes = "" ∧
    (∃ r₁ r₂,
      selectData ⟨[]⟩ (some Example.dotStar) none none
        (some Example.speak) false = .ok r₁ ∧
      selectData ⟨[Example.bacru]⟩ (some Example.dotStar) none none
        (some Example.speak) false = .ok r₂ ∧
      selectData ⟨[] ++ Example.klama :: [Example.bacru]⟩
        (some Example.dotStar) none none (some Example.speak) false
        = .ok (r₁ ++ r₂)) :=
  ⟨by decide, rfl,
    empty_fields_do_not_admit [] [Example.bacru] Example.klama
      Example.dotStar none none Example.speak false
      (by decide) rfl (by decide) (by simp [Example.klama])
      (by simp [Example.klama])⟩

/-- C8, refuted as stated: the pattern texts `^LO` and `^lo` differ only in
letter case; `getRegexp` and `getArgument` compile each as given, the first
pattern does not match `lojbo` and the second does, and the two queries do
not select the same entries. -/
theorem pattern_text_not_lowered :
    strings.ToLower "^LO" = "^lo" ∧
    (getRegexp regexp.Compile "^LO").map
        (Option.map (fun re => re.accepts "lojbo")) = .ok (some false) ∧
    (getRegexp regexp.Compile (strings.ToLower "^LO")).map
        (Option.map (fun re => re.accepts "lojbo")) = .ok (some true) ∧
    main regexp.Compile "" "" "" false false ["^LO"] ⟨[Example.lojbo]⟩
      = .ok (some []) ∧
    main regexp.Compile "" "" "" false false ["^lo"] ⟨[Example.lojbo]⟩
      = .ok (some [Example.lojbo]) := by
  refine ⟨?_, ?_, ?_, ?_, ?_⟩ <;> decide

/-- C8, amended: pattern text is compiled as given, without lower-casing.
For a non-empty text the pattern produced by `getRegexp`, and by
`getArgument` for the headword, is the one compiled from the text itself; it
is the one compiled from the lower-cased text when the text is already in
lower case. -/
theorem getRegexp_compiles_text (Compile : String → Option Regexp) (s : String)
    (hs : s ≠ "") :
    getArgument Compile [s] = getRegexp Compile s ∧
    getRegexp Compile s
      = (match Compile s with
        | none => .error .checkError
        | some exp => .ok (some exp)) ∧
    (strings.ToLower s = s →
      getRegexp Compile s
        = (match Compile (strings.ToLower s) with
          | none => .error .checkError
          | some exp => .ok (some exp))) := by
  have h : getRegexp Compile s
      = (match Compile s with
        | none => .error .checkError
        | some exp => .ok (some exp)) := by
    unfold getRegexp
    rw [if_pos hs]
  refine ⟨rfl, h, ?_⟩
  intro hl
  rw [hl]
  exact h

/-- Witness of the amended C8 at the pattern text `^lo`. -/
theorem getRegexp_compiles_text_witness :
    "^lo" ≠ "" ∧
    strings.ToLower "^lo" = "^lo" ∧
    getArgument regexp.Compile ["^lo"] = getRegexp regexp.Compile "^lo" ∧
    getRegexp regexp.Compile "^lo"
      = (match regexp.Compile "^lo" with
        | none => .error .checkError
        | some exp => .ok (some exp)) :=
  ⟨by decide, by decide,
    (getRegexp_compiles_text regexp.Compile "^lo" (by decide)).1,
    (getRegexp_compiles_text regexp.Compile "^lo" (by decide)).2.1⟩

/-! ## Case of the entry fields -/

/-- C9: matching is case-insensitive in the entry fields.  When the entries
of two collections agree, position by position, on `Unofficial` and on the
lower-case forms of headword, type, contributor handle, contributor name,
definition, notes and of the word and sense of each gloss, `selectData`
admits the same collection positions the same number of times in both: one
list of positions `idx` reads both results off the two collections.  In
particular a pattern that matches `lojbo` admits an entry whose headword is
`LOJBO`. -/
theorem selectData_case_insensitive (A B : List Valsi) (argX : Regexp)
    (typeX userX clueX : Option Regexp) (wild : Bool)
    (h : List.Forall₂ (fun a b =>
      a.Unofficial = b.Unofficial ∧
      strings.ToLower a.Word = strings.ToLower b.Word ∧
      strings.ToLower a.Type_ = strings.ToLower b.Type_ ∧
      strings.ToLower a.UserName = strings.ToLower b.UserName ∧
      strings.ToLower a.RealName = strings.ToLower b.RealName ∧
      strings.ToLower a.Definition = strings.ToLower b.Definition ∧
      strings.ToLower a.Notes = strings.ToLower b.Notes ∧
      List.Forall₂ (fun g g' =>
        strings.ToLower g.Word = strings.ToLower g'.Word ∧
        strings.ToLower g.Sense = strings.ToLower g'.Sense)
        a.GlossWords b.GlossWords) A B) :
    (∃ (idx : List Nat) (rA rB : List Valsi),
      selectData ⟨A⟩ (some argX) typeX userX clueX wild = .ok rA ∧
      selectData ⟨B⟩ (some argX) typeX userX clueX wild = .ok rB ∧
      rA.map some = idx.map (fun i => A[i]?) ∧
      rB.map some = idx.map (fun i => B[i]?)) ∧
    (∀ v : Valsi, v.Word = "LOJBO" → argX.accepts "lojbo" = true →
      selectData ⟨[v]⟩ (some argX) none none none false = .ok [v]) := by
  constructor
  · obtain ⟨rA, hA, hA'⟩ := selectData_positions A argX typeX userX clueX wild
    obtain ⟨rB, hB, hB'⟩ := selectData_positions B argX typeX userX clueX wild
    refine ⟨_, rA, rB, hA, hB, hA', ?_⟩
    rw [hB']
    congr 2
    clear hA hA' hB hB'
    induction h with
    | nil => rfl
    | cons hab _ ih =>
      obtain ⟨hU, hW, hT, hH, hR, hD, hN, hG⟩ := hab
      simp only [List.map_cons, ih,
        copies_length_congr argX typeX userX clueX wild _ _ hU hW hT hH hR hD hN hG]
  · intro v hv hacc
    rw [selectData_some]
    have hl : strings.ToLower "LOJBO" = "lojbo" := by decide
    simp [copies, criteriaB, hv, hl, hacc]

/-- Witness of C9: the entry `LOJBO`, written in upper case, and its
lower-case form are both selected by the headword pattern `^lo` with the clue
pattern `language`, which only the sense of their gloss matches. -/
theorem selectData_case_insensitive_witness :
    (∃ (idx : List Nat) (rA rB : List Valsi),
      selectData ⟨[Example.klama, Example.lojbo]⟩ (some Example.startsLo)
        none none (some (Regexp.literal "language")) false = .ok rA ∧
      selectData ⟨[Example.klama, Example.lojboLower]⟩ (some Example.startsLo)
        none none (some (Regexp.literal "language")) false = .ok rB ∧
      rA.map some = idx.map (fun i => [Example.klama, Example.lojbo][i]?) ∧
      rB.map some
        = idx.map (fun i => [Example.klama, Example.lojboLower][i]?)) ∧
    selectData ⟨[Example.lojbo]⟩ (some Example.startsLo) none none none false
      = .ok [Example.lojbo] ∧
    selectData ⟨[Example.klama, Example.lojbo]⟩ (some Example.startsLo)
        none none (some (Regexp.literal "language")) false
      = .ok [Example.lojbo] :=
  have hw := selectData_case_insensitive
    [Example.klama, Example.lojbo] [Example.klama, Example.lojboLower]
    Example.startsLo none none (some (Regexp.literal "language")) false
    (by decide)
  ⟨hw.1, hw.2 Example.lojbo rfl (by decide), by decide⟩

/-! ## Absent patterns -/

/-- C10: a textually empty optional pattern means no constraint.  `getRegexp`
returns the absent pattern exactly when the text is empty, and `selectData`
with an absent type pattern, user pattern or clue pattern gives the same
outcome as with a pattern that matches every string in that position, the
other arguments being equal. -/
theorem absent_pattern_is_no_constraint (Compile : String → Option Regexp)
    (str : String) (parsed : Result) (argX typeX userX clueX : Option Regexp)
    (wild : Bool) (all : Regexp) (hall : ∀ s, all.accepts s = true) :
    (getRegexp Compile str = .ok none ↔ str = "") ∧
    selectData parsed argX none userX clueX wild
      = selectData parsed argX (some all) userX clueX wild ∧
    selectData parsed argX typeX none clueX wild
      = selectData parsed argX typeX (some all) clueX wild ∧
    selectData parsed argX typeX userX none wild
      = selectData parsed argX typeX userX (some all) wild := by
  refine ⟨?_, ?_, ?_, ?_⟩
  · unfold getRegexp
    by_cases hs : str = ""
    · simp [hs]
    · rw [if_pos hs]
      cases Compile str <;> simp [hs]
  · cases argX with
    | none => rw [selectData_none, selectData_none]
    | some a => rw [selectData_some, selectData_some, copies_type_all _ _ _ _ _ hall]
  · cases argX with
    | none => rw [selectData_none, selectData_none]
    | some a => rw [selectData_some, selectData_some, copies_user_all _ _ _ _ _ hall]
  · cases argX with
    | none => rw [selectData_none, selectData_none]
    | some a => rw [selectData_some, selectData_some, copies_clue_all _ _ _ _ _ hall]

/-- Witness of C10 with the pattern `.*`, which matches every string, as clue
pattern on the collection `klama`, `tavla`, `bacru`. -/
theorem absent_pattern_is_no_constraint_witness :
    (∀ s, Example.dotStar.accepts s = true) ∧
    (getRegexp regexp.Compile "" = .ok none ↔ ("" : String) = "") ∧
    selectData ⟨[Example.klama, Example.tavla, Example.bacru]⟩
        (some Example.dotStar) none none none false
      = selectData ⟨[Example.klama, Example.tavla, Example.bacru]⟩
        (some Example.dotStar) none none (some Example.dotStar) false ∧
    selectData ⟨[Example.klama, Example.tavla, Example.bacru]⟩
        (some Example.dotStar) none none (some Example.dotStar) false
      = .ok [Example.klama, Example.tavla, Example.bacru] :=
  have hw := absent_pattern_is_no_constraint regexp.Compile ""
    ⟨[Example.klama, Example.tavla, Example.bacru]⟩
    (some Example.dotStar) none none none false
    Example.dotStar dotStar_accepts
  ⟨dotStar_accepts, hw.1, hw.2.2.2, by decide⟩

/-! ## Shape of the result -/

theorem positions_ge (ns : List Nat) (start x : Nat)
    (h : x ∈ positions ns start) : start ≤ x := by
  induction ns generalizing start with
  | nil => simp [positions] at h
  | cons n ns ih =>
    simp only [positions, List.mem_append, List.mem_replicate] at h
    rcases h with h | h
    · exact Nat.le_of_eq h.2.symm
    · exact Nat.le_of_succ_le (ih _ h)

theorem positions_pairwise_le (ns : List Nat) (start : Nat) :
    (positions ns start).Pairwise (· ≤ ·) := by
  induction ns generalizing start with
  | nil => simp [positions]
  | cons n ns ih =>
    simp only [positions, List.pairwise_append, List.pairwise_replicate,
      List.mem_replicate]
    refine ⟨Or.inr (Nat.le_refl _), ih _, ?_⟩
    rintro a ⟨-, rfl⟩ b hb
    exact Nat.le_of_succ_le (positions_ge _ _ _ hb)

theorem positions_pairwise_lt (ns : List Nat) (start : Nat)
    (h : ∀ n ∈ ns, n ≤ 1) : (positions ns start).Pairwise (· < ·) := by
  induction ns generalizing start with
  | nil => simp [positions]
  | cons n ns ih =>
    simp only [positions, List.pairwise_append, List.pairwise_replicate,
      List.mem_replicate]
    refine ⟨Or.inl (h n (List.mem_cons_self _ _)),
      ih _ (fun m hm => h m (List.mem_cons_of_mem _ hm)), ?_⟩
    rintro a ⟨-, rfl⟩ b hb
    exact positions_ge _ _ _ hb

theorem positions_subset (ns ns' : List Nat) (start : Nat)
    (h : List.Forall₂ (fun a b => a ≠ 0 → b ≠ 0) ns ns') :
    positions ns start ⊆ positions ns' start := by
  induction h generalizing start with
  | nil => exact List.Subset.refl _
  | cons hab _ ih =>
    intro x hx
    simp only [positions, List.mem_append, List.mem_replicate] at hx ⊢
    rcases hx with hx | hx
    · exact Or.inl ⟨hab hx.1, hx.2⟩
    · exact Or.inr (ih _ hx)

theorem flatMap_sublist {α β : Type} (f g : α → List β) (l : List α)
    (h : ∀ a, (f a).Sublist (g a)) : (l.flatMap f).Sublist (l.flatMap g) := by
  induction l with
  | nil => exact List.Sublist.refl _
  | cons a l ih =>
    simp only [List.flatMap_cons]
    exact List.Sublist.append (h a) ih

theorem copies_length_le_one_of_no_clue (argX : Regexp) (typeX userX : Option Regexp)
    (wild : Bool) (v : Valsi) :
    (copies argX typeX userX none wild v).length ≤ 1 := by
  unfold copies
  split <;> simp

theorem copies_clue_ne_nil (argX : Regexp) (typeX userX clueX : Option Regexp)
    (wild : Bool) (v : Valsi)
    (h : (copies argX typeX userX clueX wild v).length ≠ 0) :
    (copies argX typeX userX none wild v).length ≠ 0 := by
  unfold copies at h ⊢
  cases hc : criteriaB argX typeX userX wild v
  · simp [hc] at h
  · simp

theorem getRegexp_error (Compile : String → Option Regexp) (str : String)
    (e : Panic) (h : getRegexp Compile str = .error e) : e = .checkError := by
  unfold getRegexp at h
  split at h
  · split at h
    · exact (Except.error.inj h).symm
    · cases h
  · cases h

/-- C11: the result of `selectData` is made of unmodified entries of the
collection in collection order: a non-decreasing list `idx` of collection
positions, one for each result position, gives each result element as the
collection entry at that position, and equal positions in it are
consecutive. -/
theorem selectData_reads_collection (parsed : Result) (argX : Regexp)
    (typeX userX clueX : Option Regexp) (wild : Bool) :
    ∃ (r : List Valsi) (idx : List Nat),
      selectData parsed (some argX) typeX userX clueX wild = .ok r ∧
      r.map some = idx.map (fun i => parsed.ValSlice[i]?) ∧
      idx.Pairwise (· ≤ ·) ∧
      (∀ i j k : Nat, i < j → j < k → k < idx.length →
        idx[i]? = idx[k]? → idx[j]? = idx[i]?) := by
  obtain ⟨r, hr, hidx⟩ :=
    selectData_positions parsed.ValSlice argX typeX userX clueX wild
  have hp := positions_pairwise_le
    (parsed.ValSlice.map
      (fun v => (copies argX typeX userX clueX wild v).length)) 0
  refine ⟨r, _, hr, hidx, hp, ?_⟩
  intro i j k hij hjk hk h
  rw [List.pairwise_iff_getElem] at hp
  have hj : j < _ := Nat.lt_trans hjk hk
  have hi : i < _ := Nat.lt_trans hij hj
  have h1 := hp i j hi hj hij
  have h2 := hp j k hj hk hjk
  rw [List.getElem?_eq_getElem hi, List.getElem?_eq_getElem hk] at h
  rw [List.getElem?_eq_getElem hi, List.getElem?_eq_getElem hj]
  have h3 := Option.some.inj h
  congr 1
  omega

/-- C13, refuted as stated: on the collection made of `bacru` alone, whose
`Unofficial` is `"true"`, the result with `wild` set equals the result with
`wild` unset; on the empty collection both are empty. -/
theorem wild_result_not_proper :
    selectData ⟨[Example.bacru]⟩ (some Example.dotStar) none none none true
      = .ok [Example.bacru] ∧
    selectData ⟨[Example.bacru]⟩ (some Example.dotStar) none none none false
      = .ok [Example.bacru] ∧
    selectData ⟨[]⟩ (some Example.dotStar) none none none true = .ok [] ∧
    selectData ⟨[]⟩ (some Example.dotStar) none none none false = .ok [] := by
  refine ⟨?_, ?_, ?_, ?_⟩ <;> decide

/-- C13, amended: the result of `selectData` with `wild` set is a sublist of
the result with `wild` unset for the same collection and patterns; it is a
proper one exactly when the result with `wild` unset holds an entry whose
`Unofficial` is not `"true"`. -/
theorem wild_result_sublist (parsed : Result) (argX : Regexp)
    (typeX userX clueX : Option Regexp) :
    ∃ r r',
      selectData parsed (some argX) typeX userX clueX true = .ok r ∧
      selectData parsed (some argX) typeX userX clueX false = .ok r' ∧
      r.Sublist r' ∧
      (r ≠ r' ↔ ∃ e ∈ r', e.Unofficial ≠ "true") := by
  refine ⟨_, _, selectData_some _ _ _ _ _ _, selectData_some _ _ _ _ _ _, ?_, ?_⟩
  · rw [flatMap_copies_wild]
    exact List.filter_sublist _
  · rw [flatMap_copies_wild, Ne, List.filter_eq_self]
    constructor
    · intro h
      by_contra hn
      apply h
      intro a ha
      by_contra hna
      exact hn ⟨a, ha, by simpa using hna⟩
    · rintro ⟨e, he, hne⟩ h
      exact hne (by simpa using h e he)

/-- C15: with a present headword pattern `selectData` returns a result for
every collection and every combination of absent or present type, user and
clue patterns; the gloss loop is reached only when the clue pattern is
present, and it returns; `main`, which stops before `selectData` on an absent
headword pattern, never calls a method through `nil`. -/
theorem selectData_total (parsed : Result) (argX : Regexp)
    (typeX userX clueX : Option Regexp) (wild : Bool) :
    (∃ r, selectData parsed (some argX) typeX userX clueX wild = .ok r) ∧
    (∀ v, selectData.clue clueX v = .ok false → ∃ c, clueX = some c) ∧
    (∀ (c : Regexp) (v : Valsi) (sel : List Valsi),
      ∃ r, v.GlossWords.foldlM (selectData.glossStep (some c) v) sel = .ok r) ∧
    (∀ (Compile : String → Option Regexp) (t c u : String) (official : Bool)
      (args : List String),
      main Compile t c u official wild args parsed ≠ .error .nilDereference) := by
  refine ⟨⟨_, selectData_some _ _ _ _ _ _⟩, ?_, ?_, ?_⟩
  · intro v h
    cases clueX with
    | none => rw [clue_none] at h; cases h
    | some c => exact ⟨c, rfl⟩
  · intro c v sel
    exact ⟨_, gloss_loop c v v.GlossWords sel⟩
  · intro Compile t c u official args h
    unfold main at h
    have hne : (Panic.nilDereference) ≠ .checkError := by decide
    cases ha : getArgument Compile args with
    | error e =>
      rw [ha] at h
      have he : e = .checkError := by
        unfold getArgument at ha
        split at ha
        · exact getRegexp_error _ _ _ ha
        · cases ha
      rw [he] at h
      cases h
    | ok a =>
      rw [ha] at h
      cases a with
      | none => cases h
      | some argRegexp =>
        simp only at h
        cases ht : getRegexp Compile t with
        | error e =>
          rw [ht, getRegexp_error _ _ _ ht] at h
          cases h
        | ok typeRegexp =>
          rw [ht] at h
          simp only at h
          cases hc : getRegexp Compile c with
          | error e =>
            rw [hc, getRegexp_error _ _ _ hc] at h
            cases h
          | ok clueRegexp =>
            rw [hc] at h
            simp only at h
            cases hu : main.userRegexp Compile official u with
            | error e =>
              have he : e = .checkError := by
                unfold main.userRegexp at hu
                split at hu
                · cases hu
                · exact getRegexp_error _ _ _ hu
              rw [hu, he] at h
              cases h
            | ok userRegexp =>
              rw [hu] at h
              simp only [selectData_some] at h
              cases h

/-- C16: adding a type or a user constraint only narrows the result: the
result of `selectData` with a type pattern present, and likewise with a user
pattern present, is a sublist of the result with that pattern absent, the
other arguments being equal. -/
theorem selectData_constraint_narrows (parsed : Result) (argX : Regexp)
    (typeX userX clueX : Option Regexp) (t u : Regexp) (wild : Bool) :
    (∃ r r',
      selectData parsed (some argX) (some t) userX clueX wild = .ok r ∧
      selectData parsed (some argX) none userX clueX wild = .ok r' ∧
      r.Sublist r') ∧
    (∃ r r',
      selectData parsed (some argX) typeX (some u) clueX wild = .ok r ∧
      selectData parsed (some argX) typeX none clueX wild = .ok r' ∧
      r.Sublist r') := by
  constructor
  · refine ⟨_, _, selectData_some _ _ _ _ _ _, selectData_some _ _ _ _ _ _, ?_⟩
    apply flatMap_sublist
    intro v
    cases ht : t.accepts (strings.ToLower v.Type_) <;> simp [copies, criteriaB, ht]
  · refine ⟨_, _, selectData_some _ _ _ _ _ _, selectData_some _ _ _ _ _ _, ?_⟩
    apply flatMap_sublist
    intro v
    cases h1 : u.accepts (strings.ToLower v.UserName) <;>
      cases h2 : u.accepts (strings.ToLower v.RealName) <;>
      simp [copies, criteriaB, h1, h2]

theorem forall₂_map_same {α β : Type} (R : β → β → Prop) (f g : α → β)
    (l : List α) (h : ∀ a, R (f a) (g a)) :
    List.Forall₂ R (l.map f) (l.map g) := by
  induction l with
  | nil => exact List.Forall₂.nil
  | cons a l ih => exact List.Forall₂.cons (h a) ih

/-- C17: the collection positions admitted with a clue pattern present are
among the positions admitted with the clue pattern absent, each of which is
admitted once; yet the result can be longer with the clue pattern: on the
collection made of `tavla` alone the clue pattern `speak` gives two
occurrences where no clue pattern gives one, and `displayData` reports two
occurrences for a collection of one entry. -/
theorem clue_can_lengthen :
    (∀ (parsed : Result) (argX : Regexp) (typeX userX : Option Regexp)
      (c : Regexp) (wild : Bool),
      ∃ (r r' : List Valsi) (idx idx' : List Nat),
        selectData parsed (some argX) typeX userX (some c) wild = .ok r ∧
        selectData parsed (some argX) typeX userX none wild = .ok r' ∧
        r.map some = idx.map (fun i => parsed.ValSlice[i]?) ∧
        r'.map some = idx'.map (fun i => parsed.ValSlice[i]?) ∧
        idx ⊆ idx' ∧ idx'.Pairwise (· < ·)) ∧
    selectData ⟨[Example.tavla]⟩ (some Example.dotStar) none none
        (some Example.speak) false = .ok [Example.tavla, Example.tavla] ∧
    selectData ⟨[Example.tavla]⟩ (some Example.dotStar) none none none false
      = .ok [Example.tavla] ∧
    strings.hasPrefixChars
        (displayData "xml-export.html" [Example.tavla, Example.tavla]
          false false).data
        "Parsing XML lojban dictionary (xml-export.html) : found 2 occurences\n".data
      = true := by
  refine ⟨?_, by decide, by decide, by decide⟩
  intro parsed argX typeX userX c wild
  obtain ⟨r, hr, hidx⟩ :=
    selectData_positions parsed.ValSlice argX typeX userX (some c) wild
  obtain ⟨r', hr', hidx'⟩ :=
    selectData_positions parsed.ValSlice argX typeX userX none wild
  refine ⟨r, r', _, _, hr, hr', hidx, hidx', ?_, ?_⟩
  · apply positions_subset
    apply forall₂_map_same
    intro v
    exact copies_clue_ne_nil argX typeX userX (some c) wild v
  · apply positions_pairwise_lt
    intro n hn
    obtain ⟨v, -, rfl⟩ := List.mem_map.1 hn
    exact copies_length_le_one_of_no_clue argX typeX userX wild v

/-! ## The classification printed by `displayData` -/

theorem displayData_gloss_append (g : Nat) (gloss : GlossWord) :
    ∃ t, ∀ out, displayData.gloss out g gloss = out ++ t := by
  unfold displayData.gloss
  by_cases hg : (g == 0) = true <;> by_cases hs : gloss.Sense.length > 0 <;>
    simp only [hg, hs, if_true, if_false, Bool.false_eq_true, String.append_assoc] <;>
    exact ⟨_, fun _ => rfl⟩

theorem displayData_gloss_loop_append (gs : List (Nat × GlossWord)) :
    ∃ t, ∀ out,
      gs.foldl (fun out g => displayData.gloss out g.1 g.2) out = out ++ t := by
  induction gs with
  | nil => exact ⟨"", fun out => by simp⟩
  | cons g gs ih =>
    obtain ⟨t, ht⟩ := displayData_gloss_append g.1 g.2
    obtain ⟨t', ht'⟩ := ih
    exact ⟨t ++ t', fun out => by
      rw [List.foldl_cons, ht, ht', String.append_assoc]⟩

/-- The part of the loop body of `displayData` after the classification
appends a text that depends on the entry and on the notes flag alone. -/
theorem displayData_entry_tail (notes : Bool) (valsi : Valsi) :
    ∃ rest, ∀ o : String,
      (let o :=
          if valsi.Definition.length > 0 then o ++ formatTxt valsi.Definition ++ "\n"
          else o
        let o := valsi.GlossWords.enum.foldl
          (fun out g => displayData.gloss out g.1 g.2) o
        let o :=
          if notes && valsi.Notes.length > 0 then
            o ++ "\nnotes :\n" ++ formatTxt valsi.Notes ++ "\n"
          else o
        o ++ "\n-----------------------------------------------------------\n")
        = o ++ rest := by
  obtain ⟨t, ht⟩ := displayData_gloss_loop_append valsi.GlossWords.enum
  simp only [ht]
  by_cases hd : valsi.Definition.length > 0 <;>
    by_cases hn : (notes && decide (valsi.Notes.length > 0)) = true <;>
    simp only [hd, hn, if_true, if_false, Bool.false_eq_true,
      String.append_assoc] <;>
    exact ⟨_, fun _ => rfl⟩

/-- The loop body of `displayData` appends to the text printed so far the
heading of the entry, the marker, the label, the heading of the definition
and a rest that does not depend on the official flag. -/
theorem displayData_entry_block (official notes : Bool) (valsi : Valsi) :
    ∃ rest, ∀ out : String,
      displayData.entry official notes out valsi
        = out ++
          ("\n[ " ++ valsi.Word ++ " ]\ttype : " ++ valsi.Type_ ++ " " ++
            valsi.Selmaho ++
            (if valsi.Unofficial == "true" then "\t(unofficial)" else "") ++
            (if official ||
                strings.Contains (strings.ToLower valsi.UserName) "official" then
              "\t(official)\n"
            else if strings.Contains valsi.RealName valsi.UserName then
              "\t(user: " ++ valsi.RealName ++ ")\n"
            else
              "\t(user: " ++ valsi.UserName ++ " / " ++ valsi.RealName ++ ")\n") ++
            "\ndefinition \t(ID=" ++ valsi.DefinitionId ++ ") :\n\t" ++ rest) := by
  obtain ⟨rest, hrest⟩ := displayData_entry_tail notes valsi
  refine ⟨rest, fun out => ?_⟩
  have h := hrest
    (out ++ "\n[ " ++ valsi.Word ++ " ]\ttype : " ++ valsi.Type_ ++ " " ++
      valsi.Selmaho ++
      (if valsi.Unofficial == "true" then "\t(unofficial)" else "") ++
      (if official ||
          strings.Contains (strings.ToLower valsi.UserName) "official" then
        "\t(official)\n"
      else if strings.Contains valsi.RealName valsi.UserName then
        "\t(user: " ++ valsi.RealName ++ ")\n"
      else
        "\t(user: " ++ valsi.UserName ++ " / " ++ valsi.RealName ++ ")\n") ++
      "\ndefinition \t(ID=" ++ valsi.DefinitionId ++ ") :\n\t")
  simp only [String.append_assoc] at h ⊢
  rw [← h]
  unfold displayData.entry
  by_cases hu : (valsi.Unofficial == "true") = true <;>
    by_cases ho : (official ||
      strings.Contains (strings.ToLower valsi.UserName) "official") = true <;>
    by_cases hc : strings.Contains valsi.RealName valsi.UserName = true <;>
    simp only [hu, ho, hc, if_true, if_false, Bool.false_eq_true,
      String.append_assoc, String.empty_append]

theorem foldl_append_blocks (block : Valsi → String) (f : String → Valsi → String)
    (hf : ∀ out v, f out v = out ++ block v) (l : List Valsi) (init : String) :
    l.foldl f init = (l.map block).foldl (fun acc b => acc ++ b) init := by
  induction l generalizing init with
  | nil => rfl
  | cons v l ih => rw [List.foldl_cons, hf, ih, List.map_cons, List.foldl_cons]

/-- C12: the text printed by `displayData` is the line with the number of
occurrences followed, for each selected entry in order, by the heading line
of the entry, a marker, a label, the heading of the definition and the rest
of the block.  The marker is `(unofficial)` if and only if `Unofficial` is
`"true"`, and empty otherwise.  The label is `(official)` when the official
flag is set or the lower-cased contributor handle contains `official`;
otherwise `(user: <name>)` when the contributor name contains the
contributor handle; otherwise `(user: <handle> / <name>)`.  For `bacru` under
the official flag both `(unofficial)` and `(official)` are printed. -/
theorem displayData_classification (file : String) (selected : List Valsi)
    (official notes : Bool) :
    (∃ marker label rest : Valsi → String,
      displayData file selected official notes
        = (selected.map (fun v =>
            "\n[ " ++ v.Word ++ " ]\ttype : " ++ v.Type_ ++ " " ++ v.Selmaho ++
              marker v ++ label v ++
              "\ndefinition \t(ID=" ++ v.DefinitionId ++ ") :\n\t" ++ rest v)).foldl
          (fun acc b => acc ++ b)
          ("Parsing XML lojban dictionary (" ++ file ++ ") : found " ++
            toString selected.length ++ " occurences\n") ∧
      ∀ v : Valsi,
        (v.Unofficial = "true" → marker v = "\t(unofficial)") ∧
        (v.Unofficial ≠ "true" → marker v = "") ∧
        (official = true ∨
            strings.Contains (strings.ToLower v.UserName) "official" = true →
          label v = "\t(official)\n") ∧
        (¬ (official = true ∨
            strings.Contains (strings.ToLower v.UserName) "official" = true) →
          strings.Contains v.RealName v.UserName = true →
          label v = "\t(user: " ++ v.RealName ++ ")\n") ∧
        (¬ (official = true ∨
            strings.Contains (strings.ToLower v.UserName) "official" = true) →
          strings.Contains v.RealName v.UserName = false →
          label v = "\t(user: " ++ v.UserName ++ " / " ++ v.RealName ++ ")\n")) ∧
    displayData "xml-export.html" [Example.bacru] true false
      = "Parsing XML lojban dictionary (xml-export.html) : found 1 occurences\n" ++
        "\n[ bacru ]\ttype : gismu \t(unofficial)\t(official)\n" ++
        "\ndefinition \t(ID=2) :\n\tutter\n" ++
        "\nglossary :\n\tspeak\n" ++
        "\n-----------------------------------------------------------\n" := by
  refine ⟨?_, by set_option maxRecDepth 100000 in decide⟩
  choose rest hrest using displayData_entry_block official notes
  refine ⟨fun v => if v.Unofficial == "true" then "\t(unofficial)" else "",
    fun v =>
      if official ||
          strings.Contains (strings.ToLower v.UserName) "official" then
        "\t(official)\n"
      else if strings.Contains v.RealName v.UserName then
        "\t(user: " ++ v.RealName ++ ")\n"
      else
        "\t(user: " ++ v.UserName ++ " / " ++ v.RealName ++ ")\n",
    rest, ?_, ?_⟩
  · unfold displayData
    exact foldl_append_blocks _ _ (fun out v => hrest v out) selected _
  · intro v
    refine ⟨?_, ?_, ?_, ?_, ?_⟩
    · intro h
      simp [h]
    · intro h
      simp [h]
    · intro h
      simp [h]
    · intro h h'
      simp [h, h']
    · intro h h'
      simp [h, h']

/-! ## The layout of the output of `formatTxt` -/

section FormatTxt

open regexp

theorem matchLitSpaces_length (lits : List (List Char)) (txt lit rest : List Char)
    (h : matchLitSpaces lits txt = some (lit, rest)) : rest.length < txt.length := by
  induction lits with
  | nil => simp [matchLitSpaces] at h
  | cons l lits ih =>
    unfold matchLitSpaces at h
    split at h
    · rename_i hc
      simp only [Bool.and_eq_true] at hc
      have h2 := (Prod.mk.inj (Option.some.inj h)).2
      rw [← h2]
      cases hd : txt.drop l.length with
      | nil => rw [hd] at hc; simp [startsWithSpace] at hc
      | cons d ds =>
        rw [hd] at hc
        simp only [startsWithSpace] at hc
        rw [List.dropWhile_cons_of_pos hc.2]
        have h3 : (d :: ds).length ≤ txt.length := by
          rw [← hd, List.length_drop]; omega
        have h4 := (List.dropWhile_sublist isSpace (l := ds)).length_le
        simp only [List.length_cons] at h3
        omega
    · exact ih h

theorem replaceAux_fuel (lits : List (List Char)) (ins : List Char) (n : Nat)
    (txt : List Char) (h : txt.length ≤ n) :
    replaceAux lits ins n txt = replaceAux lits ins txt.length txt := by
  induction n using Nat.strong_induction_on generalizing txt with
  | _ n ih =>
    cases txt with
    | nil => cases n <;> rfl
    | cons c cs =>
      cases n with
      | zero => simp at h
      | succ n =>
        simp only [List.length_cons, replaceAux]
        cases hm : matchLitSpaces lits (c :: cs) with
        | none =>
          simp only
          have hl : cs.length ≤ n := by simpa using h
          rw [ih n (Nat.lt_succ_self n) cs hl]
        | some p =>
          obtain ⟨lit, rest⟩ := p
          simp only
          have hr := matchLitSpaces_length _ _ _ _ hm
          simp only [List.length_cons] at hr h
          rw [ih n (Nat.lt_succ_self n) rest (by omega),
            ih cs.length (by omega) rest (by omega)]

theorem replaceAll_nil (lits : List (List Char)) (ins : List Char) :
    replaceAll lits ins [] = [] := rfl

theorem replaceAll_cons (lits : List (List Char)) (ins : List Char) (c : Char)
    (cs : List Char) :
    replaceAll lits ins (c :: cs)
      = match matchLitSpaces lits (c :: cs) with
        | some (lit, rest) => lit ++ ins ++ replaceAll lits ins rest
        | none => c :: replaceAll lits ins cs := by
  unfold replaceAll
  simp only [List.length_cons, replaceAux]
  cases hm : matchLitSpaces lits (c :: cs) with
  | none => rfl
  | some p =>
    obtain ⟨lit, rest⟩ := p
    simp only
    have hr := matchLitSpaces_length _ _ _ _ hm
    simp only [List.length_cons] at hr
    rw [replaceAux_fuel lits ins cs.length rest (by omega)]

theorem collapse_true (cs : List Char) :
    collapse true cs = collapse false (cs.dropWhile isSpace) := by
  induction cs with
  | nil => rfl
  | cons c cs ih =>
    by_cases hc : isSpace c = true
    · rw [List.dropWhile_cons_of_pos hc, ← ih]
      simp [collapse, hc]
    · rw [List.dropWhile_cons_of_neg hc]
      simp [collapse, hc]

theorem matchLitSpaces_empty (txt : List Char) :
    matchLitSpaces [[]] txt
      = if startsWithSpace txt then some ([], txt.dropWhile isSpace) else none := by
  simp [matchLitSpaces, strings.hasPrefixChars]

theorem replaceAll_collapse (txt : List Char) :
    replaceAll [[]] [' '] txt = collapse false txt := by
  obtain ⟨n, h⟩ : ∃ n, txt.length = n := ⟨_, rfl⟩
  induction n using Nat.strong_induction_on generalizing txt with
  | _ n ih =>
    cases txt with
    | nil => rfl
    | cons c cs =>
      rw [replaceAll_cons, matchLitSpaces_empty]
      by_cases hc : isSpace c = true
      · have hlen : (List.dropWhile isSpace cs).length < n := by
          have := (List.dropWhile_sublist isSpace (l := cs)).length_le
          simp only [List.length_cons] at h
          omega
        simp only [startsWithSpace, hc, if_true, List.dropWhile_cons_of_pos hc,
          List.nil_append, collapse, Bool.false_eq_true, if_false]
        rw [ih _ hlen _ rfl, collapse_true]
        rfl
      · have hlen : cs.length < n := by
          simp only [List.length_cons] at h
          omega
        simp only [startsWithSpace, hc, if_false, collapse, Bool.false_eq_true]
        rw [ih _ hlen _ rfl]

theorem isCollapsed_collapse (txt : List Char) (b b' : Bool) (h : b = true → b' = true) :
    isCollapsed b (collapse b' txt) = true := by
  induction txt generalizing b b' with
  | nil => rfl
  | cons c cs ih =>
    by_cases hc : isSpace c = true
    · cases b' with
      | true =>
        simp only [collapse, hc, if_true]
        exact ih b true (fun _ => rfl)
      | false =>
        have hb : b = false := by
          cases b with
          | false => rfl
          | true => exact absurd (h rfl) (by decide)
        subst hb
        have hsp : isSpace ' ' = true := by decide
        simp only [collapse, hc, if_true, Bool.false_eq_true, if_false, isCollapsed,
          hsp, beq_self_eq_true, Bool.not_false, Bool.and_self, Bool.true_and]
        exact ih true true (fun _ => rfl)
    · simp only [collapse, hc, Bool.false_eq_true, if_false, isCollapsed]
      exact ih false false (fun h => h)

theorem endsWith_iff (w lit : List Char) : endsWith w lit = true ↔ lit <:+ w := by
  unfold endsWith
  rw [hasPrefixChars_iff, List.reverse_prefix]

theorem endsAny_iff (lits : List (List Char)) (w : List Char) :
    endsAny lits w = true ↔ ∃ lit ∈ lits, lit <:+ w := by
  unfold endsAny
  simp only [List.any_eq_true, endsWith_iff]

theorem isSpace_space : isSpace ' ' = true := by decide

theorem matchCond_word (lit w rest : List Char)
    (hlit : ∀ c ∈ lit, isSpace c = false) (hw : ∀ c ∈ w, isSpace c = false) :
    (strings.hasPrefixChars (w ++ ' ' :: rest) lit &&
      startsWithSpace ((w ++ ' ' :: rest).drop lit.length)) = decide (lit = w) := by
  induction w generalizing lit with
  | nil =>
    cases lit with
    | nil => simp [strings.hasPrefixChars, startsWithSpace, isSpace_space]
    | cons d ds =>
      have hd : isSpace d = false := hlit d (List.mem_cons_self _ _)
      have hne : (' ' == d) = false := by
        rw [beq_eq_false_iff_ne]
        intro h
        rw [← h, isSpace_space] at hd
        cases hd
      simp [strings.hasPrefixChars, hne]
  | cons c w ih =>
    cases lit with
    | nil =>
      have hc : isSpace c = false := hw c (List.mem_cons_self _ _)
      simp [strings.hasPrefixChars, startsWithSpace, hc]
    | cons d ds =>
      have h1 := ih ds (fun x hx => hlit x (List.mem_cons_of_mem _ hx))
        (fun x hx => hw x (List.mem_cons_of_mem _ hx))
      simp only [List.cons_append, strings.hasPrefixChars, List.length_cons,
        List.drop_succ_cons, Bool.and_assoc, List.append_eq]
      rw [h1]
      by_cases hcd : c = d
      · subst hcd
        simp
      · have : ¬ d = c := fun h => hcd h.symm
        simp [hcd, this]

theorem matchLitSpaces_word (lits : List (List Char)) (w rest : List Char)
    (hlits : ∀ lit ∈ lits, ∀ c ∈ lit, isSpace c = false)
    (hw : ∀ c ∈ w, isSpace c = false) :
    matchLitSpaces lits (w ++ ' ' :: rest)
      = if w ∈ lits then some (w, (' ' :: rest).dropWhile isSpace) else none := by
  induction lits with
  | nil => simp [matchLitSpaces]
  | cons lit lits ih =>
    unfold matchLitSpaces
    rw [matchCond_word lit w rest (hlits lit (List.mem_cons_self _ _)) hw,
      ih (fun l hl => hlits l (List.mem_cons_of_mem _ hl))]
    by_cases h : lit = w
    · subst h
      simp
    · have h' : ¬ w = lit := fun e => h e.symm
      simp [h, h']

theorem dropWhile_not_startsWithSpace (rest : List Char)
    (h : startsWithSpace rest = false) : rest.dropWhile isSpace = rest := by
  cases rest with
  | nil => rfl
  | cons c cs => exact List.dropWhile_cons_of_neg (by simpa [startsWithSpace] using h)

theorem replaceAll_word (lits : List (List Char)) (ins w rest : List Char)
    (hlits : ∀ lit ∈ lits, lit ≠ [] ∧ ∀ c ∈ lit, isSpace c = false)
    (hw : ∀ c ∈ w, isSpace c = false) (hrest : startsWithSpace rest = false) :
    replaceAll lits ins (w ++ ' ' :: rest)
      = w ++ (if endsAny lits w then ins else [' ']) ++ replaceAll lits ins rest := by
  have hl : ∀ lit ∈ lits, ∀ c ∈ lit, isSpace c = false := fun l hl => (hlits l hl).2
  induction w with
  | nil =>
    have hm := matchLitSpaces_word lits [] rest hl hw
    have hnil : ([] : List Char) ∉ lits := fun h => (hlits [] h).1 rfl
    have he : endsAny lits [] = false := by
      rw [Bool.eq_false_iff, Ne, endsAny_iff]
      rintro ⟨lit, hlit, hs⟩
      exact (hlits lit hlit).1 (List.suffix_nil.1 hs)
    simp only [List.nil_append] at hm ⊢
    rw [replaceAll_cons, hm, if_neg hnil, he]
    rfl
  | cons c w ih =>
    have hw' : ∀ x ∈ w, isSpace x = false := fun x hx => hw x (List.mem_cons_of_mem _ hx)
    have hm := matchLitSpaces_word lits (c :: w) rest hl hw
    rw [List.cons_append] at hm ⊢
    rw [replaceAll_cons, hm]
    by_cases hmem : (c :: w) ∈ lits
    · have he : endsAny lits (c :: w) = true :=
        (endsAny_iff _ _).2 ⟨_, hmem, List.suffix_refl _⟩
      rw [if_pos hmem, he]
      simp only [List.dropWhile_cons_of_pos isSpace_space,
        dropWhile_not_startsWithSpace rest hrest, if_true, List.cons_append,
        List.append_assoc]
    · have he : endsAny lits (c :: w) = endsAny lits w := by
        rw [Bool.eq_iff_iff, endsAny_iff, endsAny_iff]
        constructor
        · rintro ⟨lit, hlit, hs⟩
          rcases List.suffix_cons_iff.1 hs with h | h
          · exact absurd (h ▸ hlit) hmem
          · exact ⟨lit, hlit, h⟩
        · rintro ⟨lit, hlit, hs⟩
          exact ⟨lit, hlit, List.suffix_cons_iff.2 (Or.inr hs)⟩
      rw [if_neg hmem, he, ih hw']
      simp only [List.cons_append, List.append_assoc]

theorem matchLitSpaces_noSpace (lits : List (List Char)) (txt : List Char)
    (h : ∀ c ∈ txt, isSpace c = false) : matchLitSpaces lits txt = none := by
  induction lits with
  | nil => rfl
  | cons lit lits ih =>
    unfold matchLitSpaces
    have hd : startsWithSpace (txt.drop lit.length) = false := by
      cases hdr : txt.drop lit.length with
      | nil => rfl
      | cons d ds =>
        have hmem : d ∈ txt := List.mem_of_mem_drop (hdr ▸ List.mem_cons_self d ds)
        simpa [startsWithSpace] using h d hmem
    simp [hd, ih]

theorem replaceAll_noSpace (lits : List (List Char)) (ins txt : List Char)
    (h : ∀ c ∈ txt, isSpace c = false) : replaceAll lits ins txt = txt := by
  induction txt with
  | nil => rfl
  | cons c cs ih =>
    rw [replaceAll_cons, matchLitSpaces_noSpace lits _ h]
    simp only
    rw [ih (fun x hx => h x (List.mem_cons_of_mem _ hx))]

theorem ne_space_of_not_isSpace (c : Char) (h : isSpace c = false) : (c == ' ') = false := by
  rw [beq_eq_false_iff_ne]
  intro e
  rw [e, isSpace_space] at h
  cases h

theorem sepFix_word (dec : List Char → List Char) (w v rest : List Char)
    (hv : ∀ c ∈ v, isSpace c = false) :
    sepFix dec w (v ++ ' ' :: rest) = v ++ dec (w ++ v) ++ sepFix dec [] rest := by
  induction v generalizing w with
  | nil => simp [sepFix]
  | cons c v ih =>
    have hc := ne_space_of_not_isSpace c (hv c (List.mem_cons_self _ _))
    simp only [List.cons_append, sepFix, hc, Bool.false_eq_true, if_false,
      List.append_eq]
    rw [ih (w ++ [c]) (fun x hx => hv x (List.mem_cons_of_mem _ hx))]
    simp

theorem sepFix_noSpace (dec : List Char → List Char) (w v : List Char)
    (hv : ∀ c ∈ v, isSpace c = false) : sepFix dec w v = v := by
  induction v generalizing w with
  | nil => rfl
  | cons c v ih =>
    have hc := ne_space_of_not_isSpace c (hv c (List.mem_cons_self _ _))
    simp only [sepFix, hc, Bool.false_eq_true, if_false]
    rw [ih (w ++ [c]) (fun x hx => hv x (List.mem_cons_of_mem _ hx))]

theorem sepFix_startsWithSpace (dec : List Char → List Char) (w txt : List Char)
    (h : startsWithSpace txt = false) : startsWithSpace (sepFix dec w txt) = false := by
  cases txt with
  | nil => rfl
  | cons c cs =>
    have hc : isSpace c = false := by simpa [startsWithSpace] using h
    simp [sepFix, ne_space_of_not_isSpace c hc, startsWithSpace, hc]

theorem isCollapsed_true_startsWithSpace (txt : List Char)
    (h : isCollapsed true txt = true) : startsWithSpace txt = false := by
  cases txt with
  | nil => rfl
  | cons c cs =>
    by_cases hc : isSpace c = true
    · simp [isCollapsed, hc] at h
    · simpa [startsWithSpace] using hc

theorem isCollapsed_weaken (txt : List Char) (b : Bool)
    (h : isCollapsed b txt = true) : isCollapsed false txt = true := by
  cases txt with
  | nil => rfl
  | cons c cs =>
    by_cases hc : isSpace c = true
    · simp only [isCollapsed, hc, if_true, Bool.and_eq_true] at h ⊢
      exact ⟨⟨h.1.1, rfl⟩, h.2⟩
    · simp only [isCollapsed, hc, Bool.false_eq_true, if_false] at h ⊢
      exact h

theorem isCollapsed_split (txt : List Char) (b : Bool) (h : isCollapsed b txt = true) :
    (∀ c ∈ txt, isSpace c = false) ∨
    ∃ v rest, txt = v ++ ' ' :: rest ∧ (∀ c ∈ v, isSpace c = false) ∧
      isCollapsed true rest = true ∧ (b = true → v ≠ []) := by
  induction txt generalizing b with
  | nil => exact Or.inl (fun c hc => by cases hc)
  | cons c cs ih =>
    by_cases hc : isSpace c = true
    · simp only [isCollapsed, hc, if_true, Bool.and_eq_true, beq_iff_eq,
        Bool.not_eq_true'] at h
      refine Or.inr ⟨[], cs, (by rw [h.1.1]; rfl), (fun x hx => by cases hx), h.2, ?_⟩
      intro hb
      rw [hb] at h
      exact absurd h.1.2 (by decide)
    · simp only [isCollapsed, hc, Bool.false_eq_true, if_false] at h
      have hc' : isSpace c = false := by simpa using hc
      rcases ih false h with h1 | ⟨v, rest, h1, h2, h3, -⟩
      · left
        intro x hx
        rcases List.mem_cons.1 hx with rfl | hx
        · exact hc'
        · exact h1 x hx
      · right
        refine ⟨c :: v, rest, (by rw [h1]; rfl), ?_, h3, fun _ => List.cons_ne_nil _ _⟩
        intro x hx
        rcases List.mem_cons.1 hx with rfl | hx
        · exact hc'
        · exact h2 x hx

theorem endsAny_straddle (done lits : List (List Char)) (u v : List Char)
    (hsafe : safe done lits = true) (hu : endsAny done u = true) (hv : v ≠ []) :
    endsAny lits (u ++ v) = endsAny lits v := by
  rw [Bool.eq_iff_iff, endsAny_iff, endsAny_iff]
  constructor
  · rintro ⟨lit, hlit, t, ht⟩
    refine ⟨lit, hlit, ?_⟩
    rcases List.append_eq_append_iff.1 ht with ⟨a, h1, h2⟩ | ⟨a, h1, h2⟩
    · by_cases ha : a = []
      · rw [h2, ha]
        exact List.suffix_refl _
      · exfalso
        obtain ⟨b, hb, hbu⟩ := (endsAny_iff _ _).1 hu
        have hau : a <:+ u := ⟨t, h1.symm⟩
        have hk : a.length < lit.length := by
          rw [h2, List.length_append]
          have := List.length_pos.2 hv
          omega
        have htake : lit.take a.length = a := by
          rw [h2, List.take_left']
          rfl
        simp only [safe, List.all_eq_true, List.mem_range] at hsafe
        have hs := hsafe b hb lit hlit a.length hk
        have hpos : a.length ≠ 0 := fun h0 => ha (List.length_eq_zero.1 h0)
        simp only [htake, Bool.or_eq_true, beq_iff_eq, hpos, false_or,
          Bool.not_eq_true', Bool.or_eq_false_iff] at hs
        rcases List.suffix_or_suffix_of_suffix hau hbu with h | h
        · have := (endsWith_iff b a).2 h
          rw [hs.1] at this
          cases this
        · have := (endsWith_iff a b).2 h
          rw [hs.2] at this
          cases this
    · exact ⟨a, h2.symm⟩
  · rintro ⟨lit, hlit, hs⟩
    exact ⟨lit, hlit, hs.trans (List.suffix_append _ _)⟩

theorem sepAfter_done (done : List (List Char)) (w : List Char) :
    sepAfter done [] [] w = if endsAny done w then [] else [' '] := by
  simp [sepAfter, endsAny]

theorem replaceAll_sepFix (done lits : List (List Char)) (ins : List Char)
    (hlits : ∀ lit ∈ lits, lit ≠ [] ∧ ∀ c ∈ lit, isSpace c = false)
    (hsafe : safe done lits = true) (txt u : List Char)
    (htxt : isCollapsed false txt = true)
    (hu : ∀ c ∈ u, isSpace c = false)
    (hend : u = [] ∨ (endsAny done u = true ∧ startsWithSpace txt = false)) :
    replaceAll lits ins (u ++ sepFix (sepAfter done [] []) [] txt)
      = u ++ sepFix (sepAfter done lits ins) [] txt := by
  obtain ⟨n, hn⟩ : ∃ n, txt.length = n := ⟨_, rfl⟩
  induction n using Nat.strong_induction_on generalizing txt u with
  | _ n ih =>
    rcases isCollapsed_split txt false htxt with hns | ⟨v, rest, hsplit, hv, hrest, -⟩
    · rw [sepFix_noSpace _ _ _ hns, sepFix_noSpace _ _ _ hns]
      apply replaceAll_noSpace
      intro c hc
      rcases List.mem_append.1 hc with h | h
      · exact hu c h
      · exact hns c h
    · subst hsplit
      have hlen : rest.length < n := by
        rw [← hn, List.length_append, List.length_cons]
        omega
      have hrs := isCollapsed_true_startsWithSpace rest hrest
      have hrc := isCollapsed_weaken rest true hrest
      rw [sepFix_word _ _ _ _ hv, sepFix_word _ _ _ _ hv]
      simp only [List.nil_append]
      by_cases hd : endsAny done v = true
      · have h1 : sepAfter done [] [] v = [] := by simp [sepAfter, hd]
        have h2 : sepAfter done lits ins v = [] := by simp [sepAfter, hd]
        rw [h1, h2, List.append_nil, ← List.append_assoc, ← List.append_assoc]
        apply ih _ hlen rest (u ++ v) hrc
        · intro c hc
          rcases List.mem_append.1 hc with h | h
          · exact hu c h
          · exact hv c h
        · right
          refine ⟨?_, hrs⟩
          obtain ⟨b, hb, hbv⟩ := (endsAny_iff _ _).1 hd
          exact (endsAny_iff _ _).2 ⟨b, hb, hbv.trans (List.suffix_append _ _)⟩
        · rfl
      · have hd' : endsAny done v = false := by simpa using hd
        have h1 : sepAfter done [] [] v = [' '] := by
          rw [sepAfter_done, hd']
          rfl
        have h2 : sepAfter done lits ins v = if endsAny lits v then ins else [' '] := by
          simp [sepAfter, hd']
        have huv : endsAny lits (u ++ v) = endsAny lits v := by
          rcases hend with h | ⟨h, hs⟩
          · rw [h, List.nil_append]
          · apply endsAny_straddle done lits u v hsafe h
            intro hvn
            rw [hvn] at hs
            simp [startsWithSpace, isSpace_space] at hs
        have hY := ih _ hlen rest [] hrc (fun c hc => by cases hc) (Or.inl rfl) rfl
        simp only [List.nil_append] at hY
        rw [h1, h2]
        have hw : ∀ c ∈ u ++ v, isSpace c = false := by
          intro c hc
          rcases List.mem_append.1 hc with h | h
          · exact hu c h
          · exact hv c h
        have hstep := replaceAll_word lits ins (u ++ v)
          (sepFix (sepAfter done [] []) [] rest) hlits hw
          (sepFix_startsWithSpace _ _ _ hrs)
        simp only [List.append_assoc, List.singleton_append] at hstep ⊢
        rw [hstep, huv, hY]

theorem sepFix_space (w txt : List Char) : sepFix (fun _ => [' ']) w txt = txt := by
  induction txt generalizing w with
  | nil => rfl
  | cons c cs ih =>
    by_cases hc : (c == ' ') = true
    · simp only [sepFix, hc, if_true, ih, List.singleton_append]
      rw [beq_iff_eq] at hc
      rw [hc]
    · simp only [sepFix, hc, Bool.false_eq_true, if_false, ih]

theorem sepAfter_nil : sepAfter [] [] [] = fun _ => [' '] := by
  funext w
  simp [sepAfter, endsAny]

theorem sepAfter_append (done lits : List (List Char)) :
    sepAfter done lits [] = sepAfter (done ++ lits) [] [] := by
  funext w
  simp only [sepAfter, endsAny, List.any_append, List.any_nil]
  by_cases h1 : done.any (endsWith w) = true <;>
    by_cases h2 : lits.any (endsWith w) = true <;> simp [h1, h2]

theorem sepAfter_absorb (done lits : List (List Char)) (h : ∀ lit ∈ lits, lit ∈ done) :
    sepAfter done lits [] = sepAfter done [] [] := by
  funext w
  simp only [sepAfter]
  cases hd : endsAny done w
  · have hl : endsAny lits w = false := by
      rw [Bool.eq_false_iff, Ne, endsAny_iff]
      rintro ⟨lit, hlit, hs⟩
      have := (endsAny_iff done w).2 ⟨lit, h lit hlit, hs⟩
      rw [hd] at this
      cases this
    rw [hl]
    rfl
  · rfl

theorem litsOK_cf : ∀ lit ∈ ["cf.".data, "Cf.".data],
    lit ≠ [] ∧ ∀ c ∈ lit, isSpace c = false := by decide

theorem litsOK_etc : ∀ lit ∈ ["etc.".data], lit ≠ [] ∧ ∀ c ∈ lit, isSpace c = false := by
  decide

theorem litsOK_eg : ∀ lit ∈ ["e.g.".data], lit ≠ [] ∧ ∀ c ∈ lit, isSpace c = false := by
  decide

theorem litsOK_dot : ∀ lit ∈ [".".data], lit ≠ [] ∧ ∀ c ∈ lit, isSpace c = false := by
  decide

/-- The four passes of `formatTxt` after the first, on a text whose whitespace
is collapsed: each space is removed after an abbreviation, replaced by a line
feed after another period, and kept otherwise. -/
theorem replaceAll_passes (txt : List Char) (h : isCollapsed false txt = true) :
    replaceAll [".".data] "\n".data
        (replaceAll ["e.g.".data] []
          (replaceAll ["etc.".data] []
            (replaceAll ["cf.".data, "Cf.".data] [] txt)))
      = sepFix (sepAfter abbreviations [['.']] ['\n']) [] txt := by
  have hnil : ∀ c ∈ ([] : List Char), isSpace c = false := fun c hc => by cases hc
  have s1 : replaceAll ["cf.".data, "Cf.".data] [] txt
      = sepFix (sepAfter ["cf.".data, "Cf.".data] [] []) [] txt := by
    have := replaceAll_sepFix [] ["cf.".data, "Cf.".data] [] litsOK_cf (by decide)
      txt [] h hnil (Or.inl rfl)
    rw [sepAfter_nil, sepFix_space, sepAfter_append [] ["cf.".data, "Cf.".data]] at this
    exact this
  have s2 : replaceAll ["etc.".data] []
        (sepFix (sepAfter ["cf.".data, "Cf.".data] [] []) [] txt)
      = sepFix (sepAfter ["cf.".data, "Cf.".data, "etc.".data] [] []) [] txt := by
    have := replaceAll_sepFix ["cf.".data, "Cf.".data] ["etc.".data] [] litsOK_etc
      (by decide) txt [] h hnil (Or.inl rfl)
    rw [sepAfter_append ["cf.".data, "Cf.".data] ["etc.".data]] at this
    exact this
  have s3 : replaceAll ["e.g.".data] []
        (sepFix (sepAfter ["cf.".data, "Cf.".data, "etc.".data] [] []) [] txt)
      = sepFix (sepAfter abbreviations [] []) [] txt := by
    have := replaceAll_sepFix ["cf.".data, "Cf.".data, "etc.".data] ["e.g.".data] []
      litsOK_eg (by decide) txt [] h hnil (Or.inl rfl)
    rw [sepAfter_append ["cf.".data, "Cf.".data, "etc.".data] ["e.g.".data]] at this
    exact this
  have s4 : replaceAll [".".data] "\n".data
        (sepFix (sepAfter abbreviations [] []) [] txt)
      = sepFix (sepAfter abbreviations [['.']] ['\n']) [] txt :=
    replaceAll_sepFix abbreviations [".".data] "\n".data litsOK_dot (by decide)
      txt [] h hnil (Or.inl rfl)
  rw [s1, s2, s3, s4]

theorem formatTxt_data (txt : String) :
    (formatTxt txt).data
      = sepFix (sepAfter abbreviations [['.']] ['\n']) [] (collapse false txt.data) := by
  have h := replaceAll_passes (collapse false txt.data)
    (isCollapsed_collapse _ false false (fun h => h))
  rw [← h, ← replaceAll_collapse]
  rfl

theorem isSpace_lf : isSpace (Char.ofNat 10) = true := by decide

theorem endsAny_nil (w : List Char) : endsAny [] w = false := rfl

theorem sepAfter_final_cases (w : List Char) :
    (endsAny abbreviations w = true ∧
        sepAfter abbreviations [['.']] ['\n'] w = [] ∧
        sepAfter abbreviations [] [] w = []) ∨
    (endsAny abbreviations w = false ∧ endsAny [['.']] w = true ∧
        sepAfter abbreviations [['.']] ['\n'] w = ['\n'] ∧
        sepAfter abbreviations [] [] w = [' ']) ∨
    (endsAny abbreviations w = false ∧ endsAny [['.']] w = false ∧
        sepAfter abbreviations [['.']] ['\n'] w = [' '] ∧
        sepAfter abbreviations [] [] w = [' ']) := by
  cases h1 : endsAny abbreviations w <;> cases h2 : endsAny [['.']] w <;>
    simp [sepAfter, h1, h2, endsAny_nil]

theorem collapse_sepFix (txt w : List Char) (b : Bool) (h : isCollapsed b txt = true) :
    collapse false (sepFix (sepAfter abbreviations [['.']] ['\n']) w txt)
      = sepFix (sepAfter abbreviations [] []) w txt := by
  induction txt generalizing w b with
  | nil => rfl
  | cons c cs ih =>
    by_cases hc : isSpace c = true
    · simp only [isCollapsed, hc, if_true, Bool.and_eq_true, beq_iff_eq] at h
      obtain ⟨⟨hcs, -⟩, hrest⟩ := h
      subst hcs
      have hs := sepFix_startsWithSpace (sepAfter abbreviations [['.']] ['\n']) [] cs
        (isCollapsed_true_startsWithSpace cs hrest)
      have hd := dropWhile_not_startsWithSpace _ hs
      simp only [sepFix, beq_self_eq_true, if_true]
      rcases sepAfter_final_cases w with ⟨-, h1, h2⟩ | ⟨-, -, h1, h2⟩ | ⟨-, -, h1, h2⟩
      · rw [h1, h2, List.nil_append, List.nil_append]
        exact ih [] true hrest
      · rw [h1, h2]
        simp only [List.singleton_append, collapse, isSpace_lf, if_true,
          Bool.false_eq_true, if_false, List.append_eq, List.nil_append]
        rw [collapse_true, hd, ih [] true hrest]
      · rw [h1, h2]
        simp only [List.singleton_append, collapse, isSpace_space, if_true,
          Bool.false_eq_true, if_false, List.append_eq, List.nil_append]
        rw [collapse_true, hd, ih [] true hrest]
    · have hc' : isSpace c = false := by simpa using hc
      simp only [isCollapsed, hc, Bool.false_eq_true, if_false] at h
      simp only [sepFix, ne_space_of_not_isSpace c hc', Bool.false_eq_true, if_false,
        collapse, hc]
      rw [ih (w ++ [c]) false h]

theorem replaceAll_merged (lits : List (List Char))
    (hlits : ∀ lit ∈ lits, lit ≠ [] ∧ ∀ c ∈ lit, isSpace c = false)
    (hsafe : safe abbreviations lits = true) (hsub : ∀ lit ∈ lits, lit ∈ abbreviations)
    (txt : List Char) (h : isCollapsed false txt = true) :
    replaceAll lits [] (sepFix (sepAfter abbreviations [] []) [] txt)
      = sepFix (sepAfter abbreviations [] []) [] txt := by
  have := replaceAll_sepFix abbreviations lits [] hlits hsafe txt [] h
    (fun c hc => by cases hc) (Or.inl rfl)
  rw [sepAfter_absorb abbreviations lits hsub] at this
  exact this

theorem formatTxt_passes (txt : String) :
    (formatTxt txt).data
      = replaceAll [".".data] "\n".data
        (replaceAll ["e.g.".data] []
          (replaceAll ["etc.".data] []
            (replaceAll ["cf.".data, "Cf.".data] []
              (replaceAll [[]] [' '] txt.data)))) := rfl

theorem formatTxt_formatTxt_data (txt : String) :
    (formatTxt (formatTxt txt)).data = (formatTxt txt).data := by
  have hc := isCollapsed_collapse txt.data false false (fun h => h)
  have h1 : collapse false (formatTxt txt).data
      = sepFix (sepAfter abbreviations [] []) [] (collapse false txt.data) := by
    rw [formatTxt_data, collapse_sepFix _ _ false hc]
  have h2 := formatTxt_passes (formatTxt txt)
  rw [h2, replaceAll_collapse, h1,
    replaceAll_merged _ litsOK_cf (by decide) (by decide) _ hc,
    replaceAll_merged _ litsOK_etc (by decide) (by decide) _ hc,
    replaceAll_merged _ litsOK_eg (by decide) (by decide) _ hc,
    formatTxt_data]
  exact replaceAll_sepFix abbreviations [".".data] "\n".data litsOK_dot (by decide)
    _ [] hc (fun c hc => by cases hc) (Or.inl rfl)

theorem lastIsSpace_concat (pre : List Char) (c : Char) :
    lastIsSpace (pre ++ [c]) = isSpace c := by
  simp [lastIsSpace, startsWithSpace]

theorem lastIsSpace_word (q w : List Char) (hw : ∀ c ∈ w, isSpace c = false)
    (hne : w ≠ []) : lastIsSpace (q ++ w) = false := by
  rcases List.eq_nil_or_concat w with h | ⟨w', c, h⟩
  · exact absurd h hne
  · subst h
    rw [List.concat_eq_append] at hw ⊢
    rw [← List.append_assoc, lastIsSpace_concat]
    exact hw c (by simp)

theorem endsAny_singleton (lit w : List Char) : endsAny [lit] w = endsWith w lit := by
  simp [endsAny]

theorem endsAny_append_right (lits : List (List Char)) (q w : List Char)
    (h : endsAny lits w = true) : endsAny lits (q ++ w) = true := by
  obtain ⟨lit, hlit, hs⟩ := (endsAny_iff _ _).1 h
  exact (endsAny_iff _ _).2 ⟨lit, hlit, hs.trans (List.suffix_append _ _)⟩

theorem endsAny_stops_of_abbreviations (w : List Char)
    (h : endsAny abbreviations w = true) : endsAny stops w = true := by
  obtain ⟨lit, hlit, hs⟩ := (endsAny_iff _ _).1 h
  exact (endsAny_iff _ _).2 ⟨lit, List.mem_append_right _ hlit, hs⟩

theorem endsAny_after_stop (lits : List (List Char)) (q w : List Char)
    (hsafe : safe stops lits = true) (hq : q = [] ∨ endsAny stops q = true)
    (hne : w ≠ []) : endsAny lits (q ++ w) = endsAny lits w := by
  rcases hq with h | h
  · rw [h, List.nil_append]
  · exact endsAny_straddle stops lits q w hsafe h hne

theorem ne_nil_of_endsAny_dot (w : List Char) (h : endsAny [['.']] w = true) : w ≠ [] := by
  intro hw
  rw [hw] at h
  cases h

theorem wellBroken_sepFix (txt : List Char) (b : Bool) (q w : List Char)
    (h : isCollapsed b txt = true) (hw : ∀ c ∈ w, isSpace c = false)
    (hq : q = [] ∨ endsAny stops q = true) (hb : w = [] → q ≠ [] → b = true) :
    wellBroken (q ++ w) (sepFix (sepAfter abbreviations [['.']] ['\n']) w txt) = true := by
  induction txt generalizing b q w with
  | nil => rfl
  | cons c cs ih =>
    by_cases hc : isSpace c = true
    · simp only [isCollapsed, hc, if_true, Bool.and_eq_true, beq_iff_eq,
        Bool.not_eq_true'] at h
      obtain ⟨⟨hcs, hbf⟩, hrest⟩ := h
      subst hcs
      have hwq : w = [] → q = [] := by
        intro h1
        by_contra h2
        rw [hb h1 h2] at hbf
        cases hbf
      simp only [sepFix, beq_self_eq_true, if_true]
      rcases sepAfter_final_cases w with ⟨ha, h1, -⟩ | ⟨ha, hd, h1, -⟩ | ⟨ha, hd, h1, -⟩
      · rw [h1, List.nil_append]
        have := ih true (q ++ w) [] hrest (fun c hc => by cases hc)
          (Or.inr (endsAny_append_right _ _ _ (endsAny_stops_of_abbreviations _ ha)))
          (fun _ _ => rfl)
        rw [List.append_nil] at this
        exact this
      · rw [h1, List.singleton_append]
        have hne := ne_nil_of_endsAny_dot w hd
        have hrec := ih true (q ++ w ++ [Char.ofNat 10]) [] hrest (fun c hc => by cases hc)
          (Or.inr ((endsAny_iff _ _).2 ⟨[Char.ofNat 10], by decide,
            List.suffix_append _ _⟩))
          (fun _ _ => rfl)
        rw [List.append_nil] at hrec
        have h2 : endsAny abbreviations (q ++ w) = false := by
          rw [endsAny_after_stop _ q w (by decide) hq hne, ha]
        have h3 : endsWith (q ++ w) ['.'] = true := by
          rw [← endsAny_singleton]
          exact endsAny_append_right _ _ _ hd
        show (checkRune (q ++ w) (Char.ofNat 10) &&
          wellBroken (q ++ w ++ [Char.ofNat 10]) _) = true
        rw [hrec, Bool.and_true]
        simp [checkRune, lastIsSpace_word q w hw hne, h2, h3]
      · rw [h1, List.singleton_append]
        have hrec := ih true (q ++ w ++ [' ']) [] hrest (fun c hc => by cases hc)
          (Or.inr ((endsAny_iff _ _).2 ⟨[' '], by decide, List.suffix_append _ _⟩))
          (fun _ _ => rfl)
        rw [List.append_nil] at hrec
        have h2 : lastIsSpace (q ++ w) = false := by
          by_cases hne : w = []
          · rw [hne, hwq hne]
            rfl
          · exact lastIsSpace_word q w hw hne
        have h3 : endsWith (q ++ w) ['.'] = false := by
          rw [← endsAny_singleton]
          by_cases hne : w = []
          · rw [hne, hwq hne]
            rfl
          · rw [endsAny_after_stop _ q w (by decide) hq hne, hd]
        show (checkRune (q ++ w) ' ' && wellBroken (q ++ w ++ [' ']) _) = true
        rw [hrec, Bool.and_true]
        simp [checkRune, h2, h3]
    · have hc' : isSpace c = false := by simpa using hc
      simp only [isCollapsed, hc, Bool.false_eq_true, if_false] at h
      simp only [sepFix, ne_space_of_not_isSpace c hc', Bool.false_eq_true, if_false,
        wellBroken, checkRune, hc', Bool.not_false, Bool.true_or, Bool.true_and]
      have := ih false q (w ++ [c]) h
        (fun x hx => by
          rcases List.mem_append.1 hx with h1 | h1
          · exact hw x h1
          · rw [List.mem_singleton.1 h1]
            exact hc')
        hq (fun h1 => absurd h1 (by simp))
      rw [← List.append_assoc] at this
      exact this

theorem wellBroken_mid (pre p r : List Char) (c : Char)
    (h : wellBroken pre (p ++ c :: r) = true) : checkRune (pre ++ p) c = true := by
  induction p generalizing pre with
  | nil =>
    simp only [List.nil_append, wellBroken, Bool.and_eq_true] at h
    rw [List.append_nil]
    exact h.1
  | cons a p ih =>
    simp only [List.cons_append, wellBroken, Bool.and_eq_true] at h
    have := ih (pre ++ [a]) h.2
    rw [List.append_assoc] at this
    exact this

theorem wellBroken_formatTxt (txt : String) :
    wellBroken [] (formatTxt txt).data = true := by
  rw [formatTxt_data]
  exact wellBroken_sepFix _ false [] []
    (isCollapsed_collapse _ false false (fun h => h)) (fun c hc => by cases hc)
    (Or.inl rfl) (fun _ h => absurd rfl h)

theorem sepFix_split (dec : List Char → List Char) (w a rest : List Char) :
    sepFix dec w (a ++ ' ' :: rest)
      = sepFix dec w a ++ dec (wordAfter w a) ++ sepFix dec [] rest := by
  induction a generalizing w with
  | nil => simp [sepFix, wordAfter]
  | cons c a ih =>
    by_cases hc : (c == ' ') = true
    · simp only [List.cons_append, sepFix, hc, if_true, wordAfter, List.append_eq]
      rw [ih []]
      simp only [List.append_assoc]
    · simp only [List.cons_append, sepFix, hc, Bool.false_eq_true, if_false, wordAfter,
        List.append_eq]
      rw [ih (w ++ [c])]

theorem wordAfter_suffix (w a : List Char) : wordAfter w a <:+ w ++ a := by
  induction a generalizing w with
  | nil => simp [wordAfter]
  | cons c a ih =>
    by_cases hc : (c == ' ') = true
    · simp only [wordAfter, hc, if_true]
      have := ih []
      rw [List.nil_append] at this
      exact this.trans ((List.suffix_cons c a).trans (List.suffix_append _ _))
    · simp only [wordAfter, hc, Bool.false_eq_true, if_false]
      have := ih (w ++ [c])
      rw [List.append_assoc] at this
      exact this

theorem wordAfter_concat (w a : List Char) (c : Char) (hc : (c == ' ') = false) :
    wordAfter w (a ++ [c]) = wordAfter w a ++ [c] := by
  induction a generalizing w with
  | nil => simp [wordAfter, hc]
  | cons d a ih =>
    by_cases hd : (d == ' ') = true
    · simp only [List.cons_append, wordAfter, hd, if_true, List.append_eq]
      exact ih []
    · simp only [List.cons_append, wordAfter, hd, Bool.false_eq_true, if_false,
        List.append_eq]
      exact ih (w ++ [d])

theorem collapse_append_rune (b : Bool) (p rest : List Char) (c : Char)
    (hc : isSpace c = false) :
    collapse b (p ++ c :: rest) = collapse b p ++ c :: collapse false rest := by
  induction p generalizing b with
  | nil => simp [collapse, hc]
  | cons d p ih =>
    by_cases hd : isSpace d = true
    · cases b <;> simp [collapse, hd, ih]
    · simp [collapse, hd, ih]

theorem collapse_eq_self (txt : List Char)
    (h : ∀ x ∈ collapse false txt, isSpace x = false) : collapse false txt = txt := by
  induction txt with
  | nil => rfl
  | cons c cs ih =>
    by_cases hc : isSpace c = true
    · exfalso
      have := h ' ' (by simp [collapse, hc])
      rw [isSpace_space] at this
      cases this
    · simp only [collapse, hc, Bool.false_eq_true, if_false] at h ⊢
      rw [ih (fun x hx => h x (List.mem_cons_of_mem _ hx))]

theorem suffix_of_suffix_collapse (lit txt : List Char) (b : Bool)
    (hlit : ∀ x ∈ lit, isSpace x = false) (h : lit <:+ collapse b txt) : lit <:+ txt := by
  induction txt generalizing b with
  | nil => exact h
  | cons c cs ih =>
    by_cases hc : isSpace c = true
    · cases b with
      | true =>
        simp only [collapse, hc, if_true] at h
        exact (ih true h).trans (List.suffix_cons _ _)
      | false =>
        simp only [collapse, hc, if_true, Bool.false_eq_true, if_false] at h
        rcases List.suffix_cons_iff.1 h with h1 | h1
        · exfalso
          have := hlit ' ' (by rw [h1]; exact List.mem_cons_self _ _)
          rw [isSpace_space] at this
          cases this
        · exact (ih true h1).trans (List.suffix_cons _ _)
    · simp only [collapse, hc, Bool.false_eq_true, if_false] at h
      rcases List.suffix_cons_iff.1 h with h1 | h1
      · have hns : ∀ x ∈ collapse false cs, isSpace x = false := by
          intro x hx
          exact hlit x (by rw [h1]; exact List.mem_cons_of_mem _ hx)
        rw [h1, collapse_eq_self cs hns]
      · exact (ih false h1).trans (List.suffix_cons _ _)

theorem abbreviations_noSpace : ∀ lit ∈ abbreviations, ∀ x ∈ lit, isSpace x = false := by
  decide

theorem startsWithSpace_dropWhile (s : List Char) :
    startsWithSpace (s.dropWhile isSpace) = false := by
  induction s with
  | nil => rfl
  | cons c cs ih =>
    by_cases hc : isSpace c = true
    · rw [List.dropWhile_cons_of_pos hc]
      exact ih
    · rw [List.dropWhile_cons_of_neg hc]
      simpa [startsWithSpace] using hc

theorem startsWithSpace_collapse (s : List Char) (h : startsWithSpace s = false) :
    startsWithSpace (collapse false s) = false := by
  cases s with
  | nil => rfl
  | cons c cs =>
    have hc : isSpace c = false := by simpa [startsWithSpace] using h
    simp [collapse, hc, startsWithSpace]

theorem isSpace_dot : isSpace '.' = false := by decide

/-- A period of the input that ends no abbreviation and is followed by
whitespace: the output is the output for the text up to the period, a line
feed, and the output for the text after the whitespace. -/
theorem formatTxt_period (p s : List Char) (w : Char) (hw : isSpace w = true)
    (hA : ∀ lit ∈ abbreviations, ¬ lit <:+ p ++ ['.']) :
    (formatTxt (String.mk (p ++ '.' :: w :: s))).data
      = (formatTxt (String.mk (p ++ ['.']))).data ++
          Char.ofNat 10 :: (formatTxt (String.mk (s.dropWhile isSpace))).data := by
  rw [formatTxt_data, formatTxt_data, formatTxt_data]
  simp only []
  have e1 : collapse false (p ++ '.' :: w :: s)
      = collapse false (p ++ ['.']) ++ ' ' :: collapse false (s.dropWhile isSpace) := by
    rw [collapse_append_rune false p (w :: s) '.' isSpace_dot,
      collapse_append_rune false p [] '.' isSpace_dot]
    simp only [collapse, hw, if_true, Bool.false_eq_true, if_false, collapse_true,
      List.append_assoc, List.singleton_append]
  have e2 : wordAfter [] (collapse false (p ++ ['.']))
      = wordAfter [] (collapse false p) ++ ['.'] := by
    rw [collapse_append_rune false p [] '.' isSpace_dot]
    exact wordAfter_concat [] _ '.' (by decide)
  have e3 : sepAfter abbreviations [['.']] ['\n']
      (wordAfter [] (collapse false (p ++ ['.']))) = ['\n'] := by
    rcases sepAfter_final_cases (wordAfter [] (collapse false (p ++ ['.'])))
        with ⟨ha, -, -⟩ | ⟨-, -, h1, -⟩ | ⟨-, hd, -, -⟩
    · exfalso
      obtain ⟨lit, hlit, hs⟩ := (endsAny_iff _ _).1 ha
      have h2 := hs.trans (wordAfter_suffix [] _)
      rw [List.nil_append] at h2
      exact hA lit hlit
        (suffix_of_suffix_collapse lit _ false (abbreviations_noSpace lit hlit) h2)
    · exact h1
    · exfalso
      rw [e2, endsAny_singleton, Bool.eq_false_iff] at hd
      exact hd ((endsWith_iff _ _).2 (List.suffix_append _ _))
  rw [e1, sepFix_split, e3]
  simp only [List.append_assoc, List.singleton_append]

theorem formatTxt_startsWithSpace (s : List Char) (h : startsWithSpace s = false) :
    startsWithSpace (formatTxt (String.mk s)).data = false := by
  rw [formatTxt_data]
  exact sepFix_startsWithSpace _ _ _ (startsWithSpace_collapse s h)

theorem sepFix_concat (dec : List Char → List Char) (w a : List Char) (c : Char)
    (hc : (c == ' ') = false) : sepFix dec w (a ++ [c]) = sepFix dec w a ++ [c] := by
  induction a generalizing w with
  | nil => simp [sepFix, hc]
  | cons d a ih =>
    by_cases hd : (d == ' ') = true
    · simp only [List.cons_append, sepFix, hd, if_true, List.append_eq, ih,
        List.append_assoc]
    · simp only [List.cons_append, sepFix, hd, Bool.false_eq_true, if_false,
        List.append_eq, ih]

theorem formatTxt_ends_with_period (p : List Char) :
    ['.'] <:+ (formatTxt (String.mk (p ++ ['.']))).data := by
  rw [formatTxt_data]
  simp only []
  rw [collapse_append_rune false p [] '.' isSpace_dot]
  simp only [collapse]
  rw [sepFix_concat _ _ _ '.' (by decide)]
  exact List.suffix_append _ _

/-- C14: in the output of `formatTxt` no two whitespace runes are adjacent,
whitespace being the class `\s` of the patterns (tab, line feed, form feed,
carriage return, space); every whitespace rune is a space or a line
feed; a line feed stands only immediately after a period, and never
immediately after `cf.`, `Cf.`, `etc.` or `e.g.`; no space immediately follows
a period; and for every period of the input that is followed by whitespace
and ends none of those abbreviations, the output is the output for the text
up to that period, then exactly one line feed, then the output for the text
after the whitespace, which does not begin with whitespace. -/
theorem formatTxt_layout (txt : String) :
    (∀ (p q : List Char) (a b : Char), (formatTxt txt).data = p ++ a :: b :: q →
      ¬ (isSpace a = true ∧ isSpace b = true)) ∧
    (∀ c ∈ (formatTxt txt).data, isSpace c = true → c = ' ' ∨ c = Char.ofNat 10) ∧
    (∀ p q : List Char, (formatTxt txt).data = p ++ Char.ofNat 10 :: q →
      ['.'] <:+ p ∧ ∀ lit ∈ ["cf.", "Cf.", "etc.", "e.g."], ¬ lit.data <:+ p) ∧
    (∀ p q : List Char, (formatTxt txt).data ≠ p ++ '.' :: ' ' :: q) ∧
    (∀ (p s : List Char) (w : Char), txt.data = p ++ '.' :: w :: s →
      isSpace w = true →
      (∀ lit ∈ ["cf.", "Cf.", "etc.", "e.g."], ¬ lit.data <:+ p ++ ['.']) →
      formatTxt txt
          = formatTxt (String.mk (p ++ ['.'])) ++ "\n" ++
            formatTxt (String.mk (s.dropWhile isSpace)) ∧
        ['.'] <:+ (formatTxt (String.mk (p ++ ['.']))).data ∧
        startsWithSpace (formatTxt (String.mk (s.dropWhile isSpace))).data = false) := by
  have hwb := wellBroken_formatTxt txt
  have habbr : ∀ lit ∈ ["cf.", "Cf.", "etc.", "e.g."], lit.data ∈ abbreviations := by
    decide
  have hmem : ∀ l ∈ abbreviations, ∃ lit ∈ ["cf.", "Cf.", "etc.", "e.g."],
      String.data lit = l := by decide
  refine ⟨?_, ?_, ?_, ?_, ?_⟩
  · rintro p q a b h ⟨ha, hb⟩
    have h' : (formatTxt txt).data = (p ++ [a]) ++ b :: q := by
      rw [h]
      simp
    rw [h'] at hwb
    have hck := wellBroken_mid [] _ _ _ hwb
    rw [List.nil_append] at hck
    simp [checkRune, hb, lastIsSpace_concat, ha] at hck
  · intro c hc hsp
    obtain ⟨p, q, h⟩ := List.append_of_mem hc
    rw [h] at hwb
    have hck := wellBroken_mid [] _ _ _ hwb
    simp only [checkRune, hsp, Bool.not_true, Bool.false_or, Bool.and_eq_true,
      Bool.or_eq_true, beq_iff_eq] at hck
    exact hck.1.1.1
  · intro p q h
    rw [h] at hwb
    have hck := wellBroken_mid [] _ _ _ hwb
    rw [List.nil_append] at hck
    simp only [checkRune, isSpace_lf, Bool.not_true, Bool.false_or, Bool.and_eq_true,
      Bool.or_eq_true, bne_self_eq_false, Bool.not_eq_true'] at hck
    have h2 := hck.1.2
    refine ⟨(endsWith_iff _ _).1 h2.1, ?_⟩
    intro lit hlit hs
    have := (endsAny_iff abbreviations p).2 ⟨lit.data, habbr lit hlit, hs⟩
    rw [h2.2] at this
    cases this
  · intro p q h
    have h' : (formatTxt txt).data = (p ++ ['.']) ++ ' ' :: q := by
      rw [h]
      simp
    rw [h'] at hwb
    have hck := wellBroken_mid [] _ _ _ hwb
    rw [List.nil_append] at hck
    have hd : endsWith (p ++ ['.']) ['.'] = true :=
      (endsWith_iff _ _).2 (List.suffix_append _ _)
    simp [checkRune, isSpace_space, hd] at hck
  · intro p s w htxt hw hA
    have hA' : ∀ l ∈ abbreviations, ¬ l <:+ p ++ ['.'] := by
      intro l hl
      obtain ⟨lit, hlit, rfl⟩ := hmem l hl
      exact hA lit hlit
    refine ⟨?_, formatTxt_ends_with_period p,
      formatTxt_startsWithSpace _ (startsWithSpace_dropWhile s)⟩
    apply String.ext
    have : txt = String.mk (p ++ '.' :: w :: s) := String.ext htxt
    rw [this, formatTxt_period p s w hw hA']
    simp [String.data_append]

/-- C18: `formatTxt` is idempotent. -/
theorem formatTxt_idempotent (txt : String) :
    formatTxt (formatTxt txt) = formatTxt txt :=
  String.ext (formatTxt_formatTxt_data txt)

/-- Witness of C14 on the text `See cf. a.  Then b. End`: the period after `a`
is followed by two spaces and ends no abbreviation; the output breaks the
line there, once, and keeps `cf.` and `a` together. -/
theorem formatTxt_layout_witness :
    "See cf. a.  Then b. End".data = "See cf. a".data ++ '.' :: ' ' :: " Then b. End".data ∧
    isSpace ' ' = true ∧
    (∀ lit ∈ ["cf.", "Cf.", "etc.", "e.g."], ¬ lit.data <:+ "See cf. a".data ++ ['.']) ∧
    (formatTxt "See cf. a.  Then b. End"
        = formatTxt (String.mk ("See cf. a".data ++ ['.'])) ++ "\n" ++
          formatTxt (String.mk (" Then b. End".data.dropWhile isSpace)) ∧
      ['.'] <:+ (formatTxt (String.mk ("See cf. a".data ++ ['.']))).data ∧
      startsWithSpace
        (formatTxt (String.mk (" Then b. End".data.dropWhile isSpace))).data = false) ∧
    formatTxt "See cf. a.  Then b. End" = "See cf.a.\nThen b.\nEnd" :=
  ⟨by decide, by decide, by decide,
    (formatTxt_layout "See cf. a.  Then b. End").2.2.2.2
      "See cf. a".data " Then b. End".data ' ' (by decide) (by decide) (by decide),
    by decide⟩

/-- Witness of C18 on a text with every kind of whitespace run. -/
theorem formatTxt_twice_example :
    formatTxt "a.  b cf.  x. e.g. y etc. . Cf. q" = "a.\nb cf.x.\ne.g.y etc..\nCf.q" ∧
    formatTxt "a.\nb cf.x.\ne.g.y etc..\nCf.q" = "a.\nb cf.x.\ne.g.y etc..\nCf.q" := by
  constructor <;> decide

end FormatTxt

end Jbovlaste
